import Mathlib

/-!
Shallow embedding of the Grant + Ledger credit engine of the saas-starter
repository: the `credit_grant` / `credit_log` data model, the waterfall
deduction algorithm (`deductCredits`), the hold / confirm / release / refund
reservation state machine, grant creation / revocation and lazy expiration.

Timestamps are modelled as `Int` (milliseconds); `randomUUID` is modelled by a
monotone `nextId : Nat` counter in the ledger state; database transactions
that throw are modelled by `Except` results, an error meaning full rollback
(the caller keeps the pre-call state).
-/

namespace SaasCredits

/-- Log actions of the `credit_log` table: 'granted' | 'consumed' | 'expired'
| 'refunded' | 'held' | 'released' | 'revoked'. -/
inductive LogAction where
  | granted
  | consumed
  | expired
  | refunded
  | held
  | released
  | revoked
deriving DecidableEq, Repr

/-- A row of the `credit_grant` table (src/db/schema, "NEW CREDIT SYSTEM"). -/
structure Grant where
  id : Nat
  userId : String
  type : String
  amount : Int
  balance : Int
  priority : Int
  expiresAt : Option Int
  effectiveAt : Int
  sourceRef : Option String
  isActive : Bool
  createdAt : Int
  updatedAt : Int
deriving DecidableEq, Repr

/-- A row of the `credit_log` table. `metadata` stands for the JSON string the
service stores (`JSON.stringify` is abstracted away). -/
structure LogEntry where
  id : Nat
  userId : String
  creditGrantId : Option Nat
  grantType : Option String
  action : LogAction
  amountChange : Int
  eventId : Option String
  reason : Option String
  metadata : Option String
  createdAt : Int
deriving DecidableEq, Repr

/-- The persistent state the credit engine mutates: the two tables plus the
fresh-id supply standing for `randomUUID`. -/
structure LedgerState where
  grants : List Grant
  logs : List LogEntry
  nextId : Nat
deriving DecidableEq, Repr

/-- Typed rendering of the errors the services throw. -/
inductive CreditError where
  | invalidAmount
  | insufficientCredits
  | amountMismatch
  | notFound
  | nothingToRefund
deriving DecidableEq, Repr

instance {α β : Type} [DecidableEq α] [DecidableEq β] : DecidableEq (Except α β) :=
  fun x y =>
    match x, y with
    | .ok a, .ok b =>
        if h : a = b then isTrue (by rw [h])
        else isFalse (fun hh => h (Except.ok.inj hh))
    | .error a, .error b =>
        if h : a = b then isTrue (by rw [h])
        else isFalse (fun hh => h (Except.error.inj hh))
    | .ok a, .error b => isFalse (fun hh => Except.noConfusion hh)
    | .error a, .ok b => isFalse (fun hh => Except.noConfusion hh)

/-- The usability condition shared by every grant query of the engine:
`isActive = true ∧ balance > 0 ∧ effectiveAt ≤ now ∧ (expiresAt IS NULL ∨
expiresAt > now)`. -/
def isUsable (now : Int) (g : Grant) : Bool :=
  g.isActive && decide (0 < g.balance) && decide (g.effectiveAt ≤ now) &&
    (match g.expiresAt with
     | none => true
     | some t => decide (now < t))

/-- `SELECT ... WHERE userId = u AND <usable>`: the usable grants of a user. -/
def usableGrants (st : LedgerState) (now : Int) (u : String) : List Grant :=
  st.grants.filter (fun g => g.userId = u && isUsable now g)

/-- Sum of the usable balances of a user (the quantity checked against the
requested amount by `deductCredits` / `holdCredits` / `hasEnoughCredits`). -/
def usableBalanceSum (st : LedgerState) (now : Int) (u : String) : Int :=
  ((usableGrants st now u).map (fun g => g.balance)).sum

/-- Sort rank of a nullable expiration under `expiresAt ASC NULLS LAST`. -/
def expRank (e : Option Int) : Int :=
  match e with
  | some _ => 0
  | none => 1

/-- Sort value of a nullable expiration under `expiresAt ASC NULLS LAST`. -/
def expVal (e : Option Int) : Int :=
  match e with
  | some t => t
  | none => 0

/-- The waterfall ordering of the source's `ORDER BY priority ASC,
expiresAt ASC NULLS LAST, createdAt ASC`. -/
def wfLE (a b : Grant) : Prop :=
  a.priority < b.priority ∨
    (a.priority = b.priority ∧
      (expRank a.expiresAt < expRank b.expiresAt ∨
        (expRank a.expiresAt = expRank b.expiresAt ∧
          (expVal a.expiresAt < expVal b.expiresAt ∨
            (expVal a.expiresAt = expVal b.expiresAt ∧
              a.createdAt ≤ b.createdAt)))))

instance : DecidableRel wfLE := fun a b => by
  unfold wfLE
  infer_instance

/-- The locked, ordered grant selection shared by `deductCredits` and
`holdCredits` (usable grants of the user, in waterfall order). -/
def orderedUsableGrants (st : LedgerState) (now : Int) (u : String) : List Grant :=
  List.insertionSort wfLE (usableGrants st now u)

/-- `UPDATE credit_grant SET ... WHERE id = gid` as a list transform. -/
def updateGrants (gs : List Grant) (gid : Nat) (f : Grant → Grant) : List Grant :=
  gs.map (fun g => if g.id = gid then f g else g)

/-- The filter used by every per-event log lookup
(`WHERE userId = u AND eventId = e AND action = a`). -/
def eventLogMatch (u e : String) (a : LogAction) (l : LogEntry) : Bool :=
  l.userId = u && l.eventId = some e && l.action = a

/-- The log rows of one user / event / action. -/
def eventLogs (st : LedgerState) (u e : String) (a : LogAction) : List LogEntry :=
  st.logs.filter (eventLogMatch u e a)

/-- One step of the waterfall loop shared by `deductCredits` (action
`consumed`) and `holdCredits` (action `held`): for each selected grant, deduct
`min(balance, remaining)` from its balance, insert one log row with
`amountChange = -(that deduction)`, and stop once `remaining ≤ 0`. -/
def waterfall (action : LogAction) (now : Int) (u e : String)
    (reason metadata : Option String) :
    List Grant → Int → LedgerState → LedgerState
  | [], _, st => st
  | g :: rest, remaining, st =>
      if remaining ≤ 0 then st
      else
        let deductFromThis := min g.balance remaining
        let newBalance := g.balance - deductFromThis
        let st1 : LedgerState :=
          { st with
              grants := updateGrants st.grants g.id
                (fun x => { x with balance := newBalance, updatedAt := now }) }
        let st2 : LedgerState :=
          { st1 with
              logs := st1.logs ++
                [{ id := st1.nextId
                   userId := u
                   creditGrantId := some g.id
                   grantType := some g.type
                   action := action
                   amountChange := -deductFromThis
                   eventId := some e
                   reason := reason
                   metadata := metadata
                   createdAt := now }]
              nextId := st1.nextId + 1 }
        waterfall action now u e reason metadata rest (remaining - deductFromThis) st2

/-- The in-place `held → consumed` conversion of `deductCredits` (step 2):
`UPDATE credit_log SET action = CONSUMED, reason = ..., metadata = ...` on the
held rows of the event.  Drizzle skips columns set to `undefined`, so a missing
metadata argument keeps the stored metadata. -/
def confirmHeldRow (u e : String) (reason metadata : Option String)
    (l : LogEntry) : LogEntry :=
  if eventLogMatch u e .held l then
    { l with
        action := .consumed
        reason := some (reason.getD "Hold auto-confirmed via deductCredits")
        metadata := match metadata with
          | some m => some m
          | none => l.metadata }
  else l

/-- `deductCredits` of src/credits/grant/deduction.service.ts. -/
def deductCredits (st : LedgerState) (now : Int) (userId : String) (amount : Int)
    (eventId : String) (reason metadata : Option String) :
    Except CreditError LedgerState :=
  if amount ≤ 0 then .error .invalidAmount
  else
    if (eventLogs st userId eventId .consumed).isEmpty = false then .ok st
    else
      let existingHeld := eventLogs st userId eventId .held
      if existingHeld.isEmpty = false then
        let heldAmount := (existingHeld.map (fun l => |l.amountChange|)).sum
        if heldAmount ≠ amount then .error .amountMismatch
        else
          .ok { st with
                  logs := st.logs.map (confirmHeldRow userId eventId reason metadata) }
      else
        let availableGrants := orderedUsableGrants st now userId
        let totalAvailable := (availableGrants.map (fun g => g.balance)).sum
        if totalAvailable < amount then .error .insufficientCredits
        else
          .ok (waterfall .consumed now userId eventId reason metadata
                availableGrants amount st)

/-- `holdCredits` of src/credits/grant/deduction.service.ts. -/
def holdCredits (st : LedgerState) (now : Int) (userId : String) (amount : Int)
    (eventId : String) (reason : Option String) :
    Except CreditError LedgerState :=
  if amount ≤ 0 then .error .invalidAmount
  else
    if (st.logs.filter (fun l =>
          eventLogMatch userId eventId .held l ||
          eventLogMatch userId eventId .consumed l)).isEmpty = false then
      .ok st
    else
      let availableGrants := orderedUsableGrants st now userId
      let totalAvailable := (availableGrants.map (fun g => g.balance)).sum
      if totalAvailable < amount then .error .insufficientCredits
      else
        .ok (waterfall .held now userId eventId
              (some (reason.getD "Credits held for pending operation")) none
              availableGrants amount st)

/-- Balance restoration loop of `releaseCredits`: for each held row that still
references a grant, `UPDATE credit_grant SET balance = balance + ABS(amountChange)`. -/
def restoreHeldBalances (now : Int) (gs : List Grant) :
    List LogEntry → List Grant
  | [] => gs
  | l :: rest =>
      match l.creditGrantId with
      | none => restoreHeldBalances now gs rest
      | some gid =>
          restoreHeldBalances now
            (updateGrants gs gid
              (fun x => { x with balance := x.balance + |l.amountChange|, updatedAt := now }))
            rest

/-- The in-place `held → released` conversion of `releaseCredits`:
`SET action = RELEASED, amountChange = ABS(amountChange), reason = ...`. -/
def releaseHeldRow (u e : String) (reason : Option String) (l : LogEntry) : LogEntry :=
  if eventLogMatch u e .held l then
    { l with
        action := .released
        amountChange := |l.amountChange|
        reason := some (reason.getD "Credits released from hold") }
  else l

/-- `releaseCredits` of src/credits/grant/deduction.service.ts (it throws no
business error: a missing hold is a logged no-op). -/
def releaseCredits (st : LedgerState) (now : Int) (userId eventId : String)
    (reason : Option String) : LedgerState :=
  let heldLogs := eventLogs st userId eventId .held
  if heldLogs.isEmpty then st
  else
    { st with
        grants := restoreHeldBalances now st.grants heldLogs
        logs := st.logs.map (releaseHeldRow userId eventId reason) }

/-- The in-place `held → consumed` conversion of `confirmHold`
(`SET action = CONSUMED, reason = ...`; metadata untouched). -/
def confirmHoldRow (u e : String) (reason : Option String) (l : LogEntry) : LogEntry :=
  if eventLogMatch u e .held l then
    { l with
        action := .consumed
        reason := some (reason.getD "Hold confirmed - credits consumed") }
  else l

/-- `confirmHold` of src/credits/grant/deduction.service.ts. -/
def confirmHold (st : LedgerState) (userId eventId : String)
    (reason : Option String) : LedgerState :=
  let heldLogs := eventLogs st userId eventId .held
  if heldLogs.isEmpty then st
  else { st with logs := st.logs.map (confirmHoldRow userId eventId reason) }

/-- `hasEnoughCredits` of src/credits/grant/deduction.service.ts. -/
def hasEnoughCredits (st : LedgerState) (now : Int) (userId : String)
    (requiredAmount : Int) : Bool :=
  decide (requiredAmount ≤ usableBalanceSum st now userId)

/-- Refund loop of `refundCredits`: per consumed row, restore
`ABS(amountChange)` to the originating grant when it still exists, and insert
one new REFUNDED row with positive `amountChange`. -/
def refundLoop (now : Int) (u e : String) (reason metadata : Option String) :
    List LogEntry → LedgerState → LedgerState
  | [], st => st
  | cl :: rest, st =>
      let refundAmount := |cl.amountChange|
      let grants1 :=
        match cl.creditGrantId with
        | none => st.grants
        | some gid =>
            updateGrants st.grants gid
              (fun x => { x with balance := x.balance + refundAmount, updatedAt := now })
      let st1 : LedgerState :=
        { grants := grants1
          logs := st.logs ++
            [{ id := st.nextId
               userId := u
               creditGrantId := cl.creditGrantId
               grantType := cl.grantType
               action := .refunded
               amountChange := refundAmount
               eventId := some e
               reason := some (reason.getD "Credits refunded for failed operation")
               metadata := metadata
               createdAt := now }]
          nextId := st.nextId + 1 }
      refundLoop now u e reason metadata rest st1

/-- `refundCredits` of src/credits/grant/deduction.service.ts. -/
def refundCredits (st : LedgerState) (now : Int) (userId originalEventId : String)
    (reason metadata : Option String) : Except CreditError LedgerState :=
  if (eventLogs st userId originalEventId .refunded).isEmpty = false then .ok st
  else
    let consumedLogs := eventLogs st userId originalEventId .consumed
    if consumedLogs.isEmpty then .error .nothingToRefund
    else .ok (refundLoop now userId originalEventId reason metadata consumedLogs st)

/-- `getDefaultPriority` of the grant service (GRANT_PRIORITY constants). -/
def getDefaultPriority (type : String) : Int :=
  if type = "subscription" then 10
  else if type = "lifetime" then 50
  else if type = "topup" then 20
  else if type = "signup_bonus" then 30
  else if type = "promo" then 35
  else if type = "referral" then 40
  else if type = "compensation" then 45
  else if type = "manual" then 48
  else if type = "legacy" then 60
  else 100

/-- `createGrant` of the grant service: positive-amount guard, idempotency
pre-check on `sourceRef`, then one transaction inserting the grant row and its
`granted` log row.  Returns the (existing or new) grant id. -/
def createGrant (st : LedgerState) (now : Int) (userId type : String)
    (amount : Int) (priority expiresAt effectiveAt : Option Int)
    (sourceRef : Option String) : Except CreditError (LedgerState × Nat) :=
  if amount ≤ 0 then .error .invalidAmount
  else
    match sourceRef.bind (fun r => st.grants.find? (fun g => g.sourceRef = some r)) with
    | some existing => .ok (st, existing.id)
    | none =>
        let grantId := st.nextId
        let grant : Grant :=
          { id := grantId
            userId := userId
            type := type
            amount := amount
            balance := amount
            priority := priority.getD (getDefaultPriority type)
            expiresAt := expiresAt
            effectiveAt := effectiveAt.getD now
            sourceRef := sourceRef
            isActive := true
            createdAt := now
            updatedAt := now }
        let log : LogEntry :=
          { id := st.nextId + 1
            userId := userId
            creditGrantId := some grantId
            grantType := some type
            action := .granted
            amountChange := amount
            eventId := none
            reason := some ("Grant created: " ++ type)
            metadata := none
            createdAt := now }
        .ok ({ grants := st.grants ++ [grant]
               logs := st.logs ++ [log]
               nextId := st.nextId + 2 }, grantId)

/-- The initial scan of `processExpiredGrants`: active grants of the user with
positive balance whose (non-null) `expiresAt` is at or before now. -/
def expiredCandidateMatch (now : Int) (u : String) (g : Grant) : Bool :=
  g.userId = u && g.isActive && decide (0 < g.balance) &&
    (match g.expiresAt with
     | some t => decide (t ≤ now)
     | none => false)

/-- Transaction body of `processExpiredGrants`: per candidate, re-read the row
(`FOR UPDATE`), skip it when the locked balance is no longer positive, else
zero the balance and stage one `expired` log with `amountChange = -(locked
balance)`; staged logs are batch-inserted by the caller. -/
def expireLoop (now : Int) (u : String) :
    List Grant → LedgerState → List LogEntry → Int →
    LedgerState × List LogEntry × Int
  | [], st, staged, total => (st, staged, total)
  | g :: rest, st, staged, total =>
      match st.grants.find? (fun x => x.id = g.id) with
      | none => expireLoop now u rest st staged total
      | some fresh =>
          if fresh.balance ≤ 0 then expireLoop now u rest st staged total
          else
            let expiredAmount := fresh.balance
            let st1 : LedgerState :=
              { st with
                  grants := updateGrants st.grants fresh.id
                    (fun x => { x with balance := 0, updatedAt := now })
                  nextId := st.nextId + 1 }
            let entry : LogEntry :=
              { id := st.nextId
                userId := u
                creditGrantId := some fresh.id
                grantType := some fresh.type
                action := .expired
                amountChange := -expiredAmount
                eventId := none
                reason := some "Grant expired"
                metadata := none
                createdAt := now }
            expireLoop now u rest st1 (staged ++ [entry]) (total + expiredAmount)

/-- `processExpiredGrants` of the grant service: early return 0 with no
transaction when no candidate exists, otherwise one transaction running the
lock / skip / zero / stage loop and one batch insert of the staged logs. -/
def processExpiredGrants (st : LedgerState) (now : Int) (userId : String) :
    LedgerState × Int :=
  let expiredGrants := st.grants.filter (expiredCandidateMatch now userId)
  if expiredGrants.isEmpty then (st, 0)
  else
    let r := expireLoop now userId expiredGrants st [] 0
    ({ r.1 with logs := r.1.logs ++ r.2.1 }, r.2.2)

/-- `revokeGrant` of the grant service: lock the grant, zero a positive
balance and write one `revoked` log, or only deactivate when the balance is
already zero; `NotFound` when the grant does not exist. -/
def revokeGrant (st : LedgerState) (now : Int) (grantId : Nat)
    (reason metadata : Option String) : Except CreditError (LedgerState × Int) :=
  match st.grants.find? (fun g => g.id = grantId) with
  | none => .error .notFound
  | some grant =>
      let revokedAmount := grant.balance
      if 0 < revokedAmount then
        .ok ({ st with
                 grants := updateGrants st.grants grantId
                   (fun g => { g with balance := 0, isActive := false, updatedAt := now })
                 logs := st.logs ++
                   [{ id := st.nextId
                      userId := grant.userId
                      creditGrantId := some grantId
                      grantType := some grant.type
                      action := .revoked
                      amountChange := -revokedAmount
                      eventId := none
                      reason := some (reason.getD "Grant revoked")
                      metadata := metadata
                      createdAt := now }]
                 nextId := st.nextId + 1 }, revokedAmount)
      else
        .ok ({ st with
                 grants := updateGrants st.grants grantId
                   (fun g => { g with isActive := false, updatedAt := now }) },
             revokedAmount)

/-- The window filter of `getExpiringCredits`: usable grants whose non-null
`expiresAt` satisfies `now < expiresAt ∧ expiresAt ≤ now + days·86400000`
(the upper bound is the source's `lte(expiresAt, futureDate)`). -/
def expiringMatch (now futureDate : Int) (u : String) (g : Grant) : Bool :=
  g.userId = u && g.isActive && decide (0 < g.balance) &&
    decide (g.effectiveAt ≤ now) &&
    (match g.expiresAt with
     | some t => decide (now < t) && decide (t ≤ futureDate)
     | none => false)

/-- Earliest-expiration fold of `getExpiringCredits` (`if (!earliest ||
expiresAt < earliest) earliest := expiresAt`). -/
def earliestFold (acc : Option Int) : List Grant → Option Int
  | [] => acc
  | g :: rest =>
      match g.expiresAt with
      | none => earliestFold acc rest
      | some t =>
          match acc with
          | none => earliestFold (some t) rest
          | some e => earliestFold (if t < e then some t else some e) rest

/-- `getExpiringCredits` of the balance service (src/unnamed/part_002). -/
def getExpiringCredits (st : LedgerState) (now : Int) (userId : String)
    (days : Int) : Int × Option Int :=
  let futureDate := now + days * 86400000
  let expiringGrants := st.grants.filter (expiringMatch now futureDate userId)
  ((expiringGrants.map (fun g => g.balance)).sum, earliestFold none expiringGrants)

/-! ### Operation language

One constructor per mutating entry point of the engine; `applyOp` runs the
operation and keeps the pre-call state when it errors (the transaction rolls
back fully, so a failed call leaves the store untouched). -/

/-- A call to one of the mutating operations of the credit engine.  Each call
carries its own reference clock, matching the `new Date()` taken per call. -/
inductive Op where
  | createGrant (now : Int) (userId type : String) (amount : Int)
      (priority expiresAt effectiveAt : Option Int) (sourceRef : Option String)
  | deductCredits (now : Int) (userId : String) (amount : Int) (eventId : String)
      (reason metadata : Option String)
  | holdCredits (now : Int) (userId : String) (amount : Int) (eventId : String)
      (reason : Option String)
  | confirmHold (userId eventId : String) (reason : Option String)
  | releaseCredits (now : Int) (userId eventId : String) (reason : Option String)
  | refundCredits (now : Int) (userId originalEventId : String)
      (reason metadata : Option String)
  | processExpiredGrants (now : Int) (userId : String)
  | revokeGrant (now : Int) (grantId : Nat) (reason metadata : Option String)
deriving Repr

/-- Run one operation; an error means the transaction rolled back and the
state is unchanged. -/
def applyOp (st : LedgerState) : Op → LedgerState
  | .createGrant now u ty amount prio exp eff ref =>
      match createGrant st now u ty amount prio exp eff ref with
      | .ok (st', _) => st'
      | .error _ => st
  | .deductCredits now u amount e r m =>
      match deductCredits st now u amount e r m with
      | .ok st' => st'
      | .error _ => st
  | .holdCredits now u amount e r =>
      match holdCredits st now u amount e r with
      | .ok st' => st'
      | .error _ => st
  | .confirmHold u e r => confirmHold st u e r
  | .releaseCredits now u e r => releaseCredits st now u e r
  | .refundCredits now u e r m =>
      match refundCredits st now u e r m with
      | .ok st' => st'
      | .error _ => st
  | .processExpiredGrants now u => (processExpiredGrants st now u).1
  | .revokeGrant now gid r m =>
      match revokeGrant st now gid r m with
      | .ok (st', _) => st'
      | .error _ => st

/-- The empty store the engine starts from. -/
def initState : LedgerState := { grants := [], logs := [], nextId := 0 }

/-- Run a sequence of operations from the empty store. -/
def runOps (ops : List Op) : LedgerState :=
  ops.foldl applyOp initState

/-! ### Ledger sums and the conservation formulas -/

/-- Sum of the grant balances of one user. -/
def balanceSum (u : String) (gs : List Grant) : Int :=
  ((gs.filter (fun g => g.userId = u)).map (fun g => g.balance)).sum

/-- Sum of `amountChange` over the log rows of one user with a given action. -/
def actionSum (a : LogAction) (u : String) (ls : List LogEntry) : Int :=
  ((ls.filter (fun l => l.userId = u && l.action = a)).map
    (fun l => l.amountChange)).sum

/-- Sum of `|amountChange|` over the log rows of one user with a given action. -/
def actionAbsSum (a : LogAction) (u : String) (ls : List LogEntry) : Int :=
  ((ls.filter (fun l => l.userId = u && l.action = a)).map
    (fun l => |l.amountChange|)).sum

/-- The conservation identity exactly as the specification states it:
`Σ balance = Σ granted + Σ released + Σ refunded − Σ|consumed| − Σ|expired| −
Σ|revoked| − Σ|held not yet released/consumed|`.  Held rows are converted in
place on release/confirm, so the rows still carrying action `held` are
precisely the outstanding holds. -/
def specConservation (u : String) (st : LedgerState) : Prop :=
  balanceSum u st.grants =
    actionSum .granted u st.logs + actionSum .released u st.logs +
      actionSum .refunded u st.logs - actionAbsSum .consumed u st.logs -
      actionAbsSum .expired u st.logs - actionAbsSum .revoked u st.logs -
      actionAbsSum .held u st.logs

instance (u : String) (st : LedgerState) : Decidable (specConservation u st) := by
  unfold specConservation
  infer_instance

/-- The conservation identity that actually holds for the code: because a
release rewrites the held rows in place (restoring balance and flipping the
sign), `released` rows carry no net ledger weight and their term is dropped. -/
def amendedConservation (u : String) (st : LedgerState) : Prop :=
  balanceSum u st.grants =
    actionSum .granted u st.logs + actionSum .refunded u st.logs -
      actionAbsSum .consumed u st.logs - actionAbsSum .expired u st.logs -
      actionAbsSum .revoked u st.logs - actionAbsSum .held u st.logs

instance (u : String) (st : LedgerState) : Decidable (amendedConservation u st) := by
  unfold amendedConservation
  infer_instance

/-- Per-row net ledger weight of the amended conservation formula; summing it
over all rows gives the right-hand side of `amendedConservation`. -/
def logContrib (u : String) (l : LogEntry) : Int :=
  if l.userId = u then
    match l.action with
    | .granted => l.amountChange
    | .refunded => l.amountChange
    | .released => 0
    | .consumed => -|l.amountChange|
    | .expired => -|l.amountChange|
    | .revoked => -|l.amountChange|
    | .held => -|l.amountChange|
  else 0

/-- Per-grant contribution to a user's balance sum. -/
def balContrib (u : String) (g : Grant) : Int :=
  if g.userId = u then g.balance else 0

/-! ### Spec-side description of the waterfall (claim C2's wording) -/

/-- Modelled from the spec sentence "walk the ordered grants; for each, deduct
`min(remaining, grant.balance)` from its balance ... and decrement `remaining`
until it reaches 0": the per-grant deduction plan of a waterfall run. -/
def waterfallPlan : List Grant → Int → List (Grant × Int)
  | [], _ => []
  | g :: rest, remaining =>
      if remaining ≤ 0 then []
      else
        let d := min g.balance remaining
        (g, d) :: waterfallPlan rest (remaining - d)

/-- Apply a deduction plan to the grant table: each planned grant gets
`min(remaining, balance)` subtracted (the plan stores the resulting
`balance − d` via the snapshot balance). -/
def applyPlan (now : Int) (gs : List Grant) (plan : List (Grant × Int)) : List Grant :=
  plan.foldl
    (fun acc p =>
      updateGrants acc p.1.id
        (fun x => { x with balance := p.1.balance - p.2, updatedAt := now }))
    gs

/-- The log rows a waterfall run writes: one row per planned grant, with
`amountChange` the negative of that grant's deduction. -/
def planLogs (action : LogAction) (now : Int) (u e : String)
    (reason metadata : Option String) (nextId : Nat) :
    List (Grant × Int) → List LogEntry
  | [] => []
  | (g, d) :: rest =>
      { id := nextId
        userId := u
        creditGrantId := some g.id
        grantType := some g.type
        action := action
        amountChange := -d
        eventId := some e
        reason := reason
        metadata := metadata
        createdAt := now } ::
        planLogs action now u e reason metadata (nextId + 1) rest

/-! ### Spec-side description of `getExpiringCredits` (claim C9's wording) -/

/-- Modelled from the claim's words with both bounds strict: usable grants
whose `expiresAt` lies strictly between `now` and `now + withinDays` days. -/
def strictWindowMatch (now futureDate : Int) (u : String) (g : Grant) : Bool :=
  g.userId = u && g.isActive && decide (0 < g.balance) &&
    decide (g.effectiveAt ≤ now) &&
    (match g.expiresAt with
     | some t => decide (now < t) && decide (t < futureDate)
     | none => false)

/-- The claim's description of `getExpiringCredits`, with a strict upper
bound: sum of balances of the strict-window grants and the earliest such
expiration (null when none). -/
def specGetExpiringCreditsStrict (st : LedgerState) (now : Int) (userId : String)
    (days : Int) : Int × Option Int :=
  let futureDate := now + days * 86400000
  let matching := st.grants.filter (strictWindowMatch now futureDate userId)
  ((matching.map (fun g => g.balance)).sum,
    (matching.filterMap (fun g => g.expiresAt)).min?)

/-- Modelled from the amended claim's words: usable grants whose `expiresAt`
lies strictly after `now` and at or before `now + withinDays` days. -/
def inclusiveWindowMatch (now futureDate : Int) (u : String) (g : Grant) : Bool :=
  g.userId = u && g.isActive && decide (0 < g.balance) &&
    decide (g.effectiveAt ≤ now) &&
    (match g.expiresAt with
     | some t => decide (now < t) && decide (t ≤ futureDate)
     | none => false)

/-- The amended description of `getExpiringCredits` (upper bound inclusive,
matching the source's `lte(expiresAt, futureDate)`): sum of balances of the
window grants and the earliest such expiration. -/
def specGetExpiringCredits (st : LedgerState) (now : Int) (userId : String)
    (days : Int) : Int × Option Int :=
  let futureDate := now + days * 86400000
  let matching := st.grants.filter (inclusiveWindowMatch now futureDate userId)
  ((matching.map (fun g => g.balance)).sum,
    (matching.filterMap (fun g => g.expiresAt)).min?)

/-- Undoing a plan: add each planned deduction back to its grant (what the
release path does to the balances a hold deducted). -/
def restorePlan (now : Int) (gs : List Grant) (plan : List (Grant × Int)) : List Grant :=
  plan.foldl
    (fun acc p =>
      updateGrants acc p.1.id
        (fun x => { x with balance := x.balance + p.2, updatedAt := now }))
    gs

/-! ### Closed forms for the loop bodies (used to state and prove claims) -/

/-- Zero the balances of a selection of grants, in order (the update sequence
`processExpiredGrants` performs inside its transaction). -/
def zeroAll (now : Int) (gs : List Grant) (sel : List Grant) : List Grant :=
  sel.foldl
    (fun acc s => updateGrants acc s.id (fun x => { x with balance := 0, updatedAt := now }))
    gs

/-- The `expired` log rows `processExpiredGrants` stages: one per zeroed
grant, with `amountChange` the negative of its locked balance. -/
def expireRows (now : Int) (u : String) (nextId : Nat) : List Grant → List LogEntry
  | [] => []
  | g :: rest =>
      { id := nextId
        userId := u
        creditGrantId := some g.id
        grantType := some g.type
        action := .expired
        amountChange := -g.balance
        eventId := none
        reason := some "Grant expired"
        metadata := none
        createdAt := now } :: expireRows now u (nextId + 1) rest

/-- The `refunded` log rows `refundCredits` inserts: one per original consumed
row, with positive `amountChange = |consumed.amountChange|` and the consumed
row's grant reference and denormalized grant type. -/
def refundRows (now : Int) (u e : String) (reason metadata : Option String)
    (nextId : Nat) : List LogEntry → List LogEntry
  | [] => []
  | cl :: rest =>
      { id := nextId
        userId := u
        creditGrantId := cl.creditGrantId
        grantType := cl.grantType
        action := .refunded
        amountChange := |cl.amountChange|
        eventId := some e
        reason := some (reason.getD "Credits refunded for failed operation")
        metadata := metadata
        createdAt := now } :: refundRows now u e reason metadata (nextId + 1) rest

/-- The grant row `createGrant` inserts. -/
def mkGrant (now : Int) (u ty : String) (amount : Int)
    (prio exp eff : Option Int) (sr : Option String) (gid : Nat) : Grant :=
  { id := gid, userId := u, type := ty, amount := amount, balance := amount,
    priority := prio.getD (getDefaultPriority ty), expiresAt := exp,
    effectiveAt := eff.getD now, sourceRef := sr, isActive := true,
    createdAt := now, updatedAt := now }

/-- The granted log row `createGrant` inserts. -/
def mkGrantedLog (now : Int) (u ty : String) (amount : Int) (gid lid : Nat) : LogEntry :=
  { id := lid, userId := u, creditGrantId := some gid, grantType := some ty,
    action := .granted, amountChange := amount, eventId := none,
    reason := some ("Grant created: " ++ ty), metadata := none, createdAt := now }

/-! ### The inductive invariant behind conservation -/

/-- The `(id, userId)` key of every grant row, in table order. -/
def grantKeys (gs : List Grant) : List (Nat × String) :=
  gs.map (fun g => (g.id, g.userId))

/-- Grant ids are unique (the store's primary-key invariant). -/
def GrantIdsNodup (gs : List Grant) : Prop :=
  (gs.map (fun g => g.id)).Nodup

instance (gs : List Grant) : Decidable (GrantIdsNodup gs) := by
  unfold GrantIdsNodup
  infer_instance

/-- Every log row references an existing grant of the same user.  (The engine
itself never deletes grants, and every log it writes points at the grant it
just touched.) -/
def RefOk (st : LedgerState) : Prop :=
  ∀ l ∈ st.logs, ∃ gid, l.creditGrantId = some gid ∧ (gid, l.userId) ∈ grantKeys st.grants

/-- The inductive invariant: per-user conservation in per-row form, log rows
reference live same-user grants, grant ids are unique, and every stored id is
below the fresh-id supply. -/
def Inv (st : LedgerState) : Prop :=
  (∀ u, (st.grants.map (balContrib u)).sum = (st.logs.map (logContrib u)).sum) ∧
    RefOk st ∧ GrantIdsNodup st.grants ∧ ∀ g ∈ st.grants, g.id < st.nextId

/-! ### Concrete scenarios used by counterexamples and witnesses -/

/-- Grant 10 topup credits, hold 5 of them, then release the hold. -/
def holdReleaseOps : List Op :=
  [ .createGrant 0 "u" "topup" 10 none none none none
  , .holdCredits 1 "u" 5 "e1" none
  , .releaseCredits 2 "u" "e1" none ]

/-- Grant 10 topup credits and hold 5 of them under event `e1`. -/
def heldOps : List Op :=
  [ .createGrant 0 "u" "topup" 10 none none none none
  , .holdCredits 1 "u" 5 "e1" none ]

/-- A single-user store with one grant of 5 credits expiring exactly 30 days
after time 0 (the boundary of the expiring-credits window). -/
def boundaryExpiryOps : List Op :=
  [ .createGrant 0 "u" "subscription" 5 none (some 2592000000) none none ]

/-- Grant 10 topup credits to one user and nothing else. -/
def grantOnlyOps : List Op :=
  [ .createGrant 0 "u" "topup" 10 none none none none ]

/-- Grant 10 topup credits, then deduct 4 of them under event `e1`. -/
def deductedOps : List Op :=
  [ .createGrant 0 "u" "topup" 10 none none none none
  , .deductCredits 1 "u" 4 "e1" none none ]

/-- One grant of 7 credits that expired at time 5 (candidate for lazy
expiration at any later clock). -/
def expiredGrantOps : List Op :=
  [ .createGrant 0 "u" "subscription" 7 none (some 5) none none ]

instance : IsTotal Grant wfLE :=
  ⟨by
    intro a b
    unfold wfLE
    omega⟩

instance : IsTrans Grant wfLE :=
  ⟨by
    intro a b c
    unfold wfLE
    omega⟩

/-! ## Lemmas -/

/-- The filtered balance sum equals the per-row contribution sum. -/
theorem balanceSum_eq_map (u : String) (gs : List Grant) :
    balanceSum u gs = (gs.map (balContrib u)).sum := by
  induction gs with
  | nil => rfl
  | cons g t ih =>
      have iht : balanceSum u t = (t.map (balContrib u)).sum := ih
      by_cases h : g.userId = u <;>
        simp [balanceSum, List.filter_cons, h, balContrib, ← iht, balanceSum]

/-- Peeling one row off an action-wise signed sum. -/
theorem actionSum_cons (a : LogAction) (u : String) (l : LogEntry) (t : List LogEntry) :
    actionSum a u (l :: t) =
      (if l.userId = u ∧ l.action = a then l.amountChange else 0) + actionSum a u t := by
  by_cases h1 : l.userId = u <;> by_cases h2 : l.action = a <;>
    simp [actionSum, List.filter_cons, h1, h2]

/-- Peeling one row off an action-wise absolute sum. -/
theorem actionAbsSum_cons (a : LogAction) (u : String) (l : LogEntry) (t : List LogEntry) :
    actionAbsSum a u (l :: t) =
      (if l.userId = u ∧ l.action = a then |l.amountChange| else 0) + actionAbsSum a u t := by
  by_cases h1 : l.userId = u <;> by_cases h2 : l.action = a <;>
    simp [actionAbsSum, List.filter_cons, h1, h2]

/-- The per-row ledger contribution sum equals the action-wise combination
used by the amended conservation formula. -/
theorem ledgerSum_eq (u : String) (ls : List LogEntry) :
    (ls.map (logContrib u)).sum =
      actionSum .granted u ls + actionSum .refunded u ls -
        actionAbsSum .consumed u ls - actionAbsSum .expired u ls -
        actionAbsSum .revoked u ls - actionAbsSum .held u ls := by
  induction ls with
  | nil => rfl
  | cons l t ih =>
      simp only [List.map_cons, List.sum_cons, actionSum_cons, actionAbsSum_cons, ih]
      by_cases hu : l.userId = u
      · cases ha : l.action <;> simp [logContrib, hu, ha] <;> try ring
      · simp [logContrib, hu]
        try ring

/-- Updating an id that occurs nowhere is a no-op. -/
theorem updateGrants_of_not_mem {gs : List Grant} {gid : Nat} {f : Grant → Grant}
    (h : ∀ b ∈ gs, b.id ≠ gid) : updateGrants gs gid f = gs := by
  induction gs with
  | nil => rfl
  | cons a t ih =>
      simp only [updateGrants, List.map_cons] at ih ⊢
      rw [if_neg (h a (by simp)), ih (fun b hb => h b (by simp [hb]))]

/-- A row whose id is not the updated one survives the update unchanged. -/
theorem mem_updateGrants_of_ne {gs : List Grant} {gid : Nat} {f : Grant → Grant}
    {g : Grant} (hg : g ∈ gs) (hne : g.id ≠ gid) : g ∈ updateGrants gs gid f := by
  have h := List.mem_map_of_mem (fun x => if x.id = gid then f x else x) hg
  simpa [updateGrants, if_neg hne] using h

/-- The updated image of a row with the targeted id is in the result. -/
theorem fmem_updateGrants {gs : List Grant} {gid : Nat} {f : Grant → Grant}
    {g : Grant} (hg : g ∈ gs) (hid : g.id = gid) : f g ∈ updateGrants gs gid f := by
  have h := List.mem_map_of_mem (fun x => if x.id = gid then f x else x) hg
  simpa [updateGrants, if_pos hid] using h

/-- Balance-style updates keep every row's `(id, userId)` key. -/
theorem grantKeys_updateGrants {gs : List Grant} {gid : Nat} {f : Grant → Grant}
    (hf : ∀ x, (f x).id = x.id ∧ (f x).userId = x.userId) :
    grantKeys (updateGrants gs gid f) = grantKeys gs := by
  simp only [grantKeys, updateGrants, List.map_map]
  refine List.map_congr_left (fun a _ => ?_)
  by_cases h : a.id = gid <;> simp [h, (hf a).1, (hf a).2]

/-- Balance-style updates keep the id list. -/
theorem ids_updateGrants {gs : List Grant} {gid : Nat} {f : Grant → Grant}
    (hf : ∀ x, (f x).id = x.id) :
    (updateGrants gs gid f).map (fun g => g.id) = gs.map (fun g => g.id) := by
  simp only [updateGrants, List.map_map]
  refine List.map_congr_left (fun a _ => ?_)
  by_cases h : a.id = gid <;> simp [h, hf a]

/-- Updating a uniquely-identified member changes any row-valuation sum by
exactly the delta on that member. -/
theorem sum_map_updateGrants (v : Grant → Int) {gs : List Grant} {g : Grant}
    {f : Grant → Grant} (hnd : GrantIdsNodup gs) (hg : g ∈ gs) :
    ((updateGrants gs g.id f).map v).sum = (gs.map v).sum + (v (f g) - v g) := by
  induction gs with
  | nil => cases hg
  | cons a t ih =>
      simp only [GrantIdsNodup, List.map_cons, List.nodup_cons] at hnd
      rcases List.mem_cons.mp hg with hga | hgt
      · subst hga
        have ht : updateGrants t g.id f = t :=
          updateGrants_of_not_mem (fun b hb hbid => hnd.1 (hbid ▸ List.mem_map_of_mem _ hb))
        have hcons : updateGrants (g :: t) g.id f = f g :: updateGrants t g.id f := by
          simp [updateGrants]
        rw [hcons, ht]
        simp only [List.map_cons, List.sum_cons]
        ring
      · have hne : ¬(a.id = g.id) := fun h => hnd.1 (h ▸ List.mem_map_of_mem _ hgt)
        have hcons : updateGrants (a :: t) g.id f = a :: updateGrants t g.id f := by
          simp [updateGrants, hne]
        rw [hcons]
        simp only [List.map_cons, List.sum_cons, ih hnd.2 hgt]
        try ring

/-- Key membership unfolds to a matching grant row. -/
theorem mem_grantKeys_iff {gs : List Grant} {gid : Nat} {u : String} :
    (gid, u) ∈ grantKeys gs ↔ ∃ g ∈ gs, g.id = gid ∧ g.userId = u := by
  simp [grantKeys, List.mem_map, Prod.mk.injEq, and_comm, eq_comm]

/-- With unique ids, `find?` by a member's id returns that member. -/
theorem find?_id_of_nodup {gs : List Grant} {g : Grant}
    (hnd : GrantIdsNodup gs) (hg : g ∈ gs) :
    gs.find? (fun x => x.id = g.id) = some g := by
  induction gs with
  | nil => cases hg
  | cons a t ih =>
      simp only [GrantIdsNodup, List.map_cons, List.nodup_cons] at hnd
      rcases List.mem_cons.mp hg with hga | hgt
      · subst hga
        simp [List.find?_cons]
      · have hne : ¬(a.id = g.id) := fun h => hnd.1 (h ▸ List.mem_map_of_mem _ hgt)
        rw [List.find?_cons_of_neg _ (by simpa using hne)]
        exact ih hnd.2 hgt

/-- With unique ids, two member rows sharing an id are the same row. -/
theorem mem_id_unique {gs : List Grant} {a b : Grant} (hnd : GrantIdsNodup gs)
    (ha : a ∈ gs) (hb : b ∈ gs) (h : a.id = b.id) : a = b :=
  List.inj_on_of_nodup_map hnd ha hb h

/-- The id list is the first projection of the key list. -/
theorem ids_eq_keys_fst (gs : List Grant) :
    gs.map (fun g => g.id) = (grantKeys gs).map (fun k => k.1) := by
  simp [grantKeys, List.map_map]

/-- Id-preserving updates keep id uniqueness. -/
theorem GrantIdsNodup_updateGrants {gs : List Grant} {gid : Nat} {f : Grant → Grant}
    (hf : ∀ x, (f x).id = x.id) (hnd : GrantIdsNodup gs) :
    GrantIdsNodup (updateGrants gs gid f) := by
  unfold GrantIdsNodup
  rw [ids_updateGrants hf]
  exact hnd

/-! ### The waterfall loop versus its per-grant plan -/

/-- A non-positive remaining amount produces an empty plan. -/
theorem waterfallPlan_nonpos {gs : List Grant} {r : Int} (h : r ≤ 0) :
    waterfallPlan gs r = [] := by
  cases gs <;> simp [waterfallPlan, h]

/-- The waterfall loop is the plan application followed by the plan's log
rows, with one fresh id per row. -/
theorem waterfall_eq_plan (action : LogAction) (now : Int) (u e : String)
    (reason metadata : Option String) :
    ∀ (gs : List Grant) (remaining : Int) (st : LedgerState),
      waterfall action now u e reason metadata gs remaining st =
        { grants := applyPlan now st.grants (waterfallPlan gs remaining)
          logs := st.logs ++
            planLogs action now u e reason metadata st.nextId (waterfallPlan gs remaining)
          nextId := st.nextId + (waterfallPlan gs remaining).length } := by
  intro gs
  induction gs with
  | nil => intro remaining st; simp [waterfall, waterfallPlan, applyPlan, planLogs]
  | cons g rest ih =>
      intro remaining st
      by_cases hr : remaining ≤ 0
      · simp [waterfall, waterfallPlan, applyPlan, planLogs, hr]
      · simp only [waterfall, waterfallPlan, if_neg hr]
        rw [ih]
        simp only [applyPlan, planLogs, List.foldl_cons, List.length_cons,
          List.append_assoc, List.singleton_append]
        congr 1
        omega

/-- When the selected grants all have positive balance and can cover the
requested amount, the per-grant deductions of the plan sum to that amount. -/
theorem waterfallPlan_sum :
    ∀ (gs : List Grant) (amount : Int), (∀ g ∈ gs, 0 < g.balance) →
      0 < amount → amount ≤ (gs.map (fun g => g.balance)).sum →
      ((waterfallPlan gs amount).map (fun p => p.2)).sum = amount := by
  intro gs
  induction gs with
  | nil => intro amount _ hpos hle; simp at hle; omega
  | cons g rest ih =>
      intro amount hbal hpos hle
      simp only [waterfallPlan, if_neg (by omega : ¬amount ≤ 0)]
      rcases le_or_lt amount g.balance with h | h
      · rw [min_eq_right h, waterfallPlan_nonpos (by omega : amount - amount ≤ 0)]
        simp
      · rw [min_eq_left h.le]
        simp only [List.map_cons, List.sum_cons] at hle ⊢
        rw [ih (amount - g.balance) (fun x hx => hbal x (by simp [hx]))
          (by omega) (by omega)]
        omega

/-- Every planned deduction is positive (the loop stops before a
non-positive remainder, and every selected grant has positive balance). -/
theorem waterfallPlan_pos :
    ∀ (gs : List Grant) (r : Int), (∀ g ∈ gs, 0 < g.balance) →
      ∀ p ∈ waterfallPlan gs r, 0 < p.2 := by
  intro gs
  induction gs with
  | nil => intro r _ p hp; simp [waterfallPlan] at hp
  | cons g rest ih =>
      intro r hbal p hp
      by_cases hr : r ≤ 0
      · simp [waterfallPlan, hr] at hp
      · simp only [waterfallPlan, if_neg hr, List.mem_cons] at hp
        rcases hp with hp | hp
        · have := hbal g (by simp)
          simp [hp]
          omega
        · exact ih _ (fun x hx => hbal x (by simp [hx])) p hp

/-- The planned grants form a sublist of the selection. -/
theorem waterfallPlan_fst_sublist :
    ∀ (gs : List Grant) (r : Int), ((waterfallPlan gs r).map (fun p => p.1)).Sublist gs := by
  intro gs
  induction gs with
  | nil => intro r; simp [waterfallPlan]
  | cons g rest ih =>
      intro r
      by_cases hr : r ≤ 0
      · simp [waterfallPlan, hr]
      · simp only [waterfallPlan, if_neg hr, List.map_cons]
        exact (ih _).cons₂ g

/-- A planned grant belongs to the selection. -/
theorem waterfallPlan_fst_mem {gs : List Grant} {r : Int} {p : Grant × Int}
    (hp : p ∈ waterfallPlan gs r) : p.1 ∈ gs :=
  (waterfallPlan_fst_sublist gs r).subset (List.mem_map_of_mem _ hp)

/-- The planned grants have pairwise-distinct ids when the selection does. -/
theorem waterfallPlan_ids_nodup {gs : List Grant} {r : Int}
    (hnd : (gs.map (fun g => g.id)).Nodup) :
    ((waterfallPlan gs r).map (fun p => p.1.id)).Nodup := by
  have hs := (waterfallPlan_fst_sublist gs r).map (fun g => g.id)
  have : ((waterfallPlan gs r).map (fun p => p.1)).map (fun g => g.id) =
      (waterfallPlan gs r).map (fun p => p.1.id) := by
    simp [List.map_map]
  exact hnd.sublist (this ▸ hs)

/-- Plan application keeps every row's `(id, userId)` key. -/
theorem applyPlan_keys (now : Int) :
    ∀ (plan : List (Grant × Int)) (gs : List Grant),
      grantKeys (applyPlan now gs plan) = grantKeys gs := by
  intro plan
  induction plan with
  | nil => intro gs; rfl
  | cons p rest ih =>
      intro gs
      simp only [applyPlan, List.foldl_cons] at ih ⊢
      rw [ih]
      exact grantKeys_updateGrants (fun x => ⟨rfl, rfl⟩)

/-- Plan application changes a user's balance sum by exactly the planned
deductions against that user's grants. -/
theorem applyPlan_balSum (u : String) (now : Int) :
    ∀ (plan : List (Grant × Int)) (gs : List Grant), GrantIdsNodup gs →
      (∀ p ∈ plan, p.1 ∈ gs) → (plan.map (fun p => p.1.id)).Nodup →
      ((applyPlan now gs plan).map (balContrib u)).sum =
        (gs.map (balContrib u)).sum -
          ((plan.filter (fun p => p.1.userId = u)).map (fun p => p.2)).sum := by
  intro plan
  induction plan with
  | nil => intro gs _ _ _; simp [applyPlan]
  | cons p rest ih =>
      intro gs hnd hmem hpnd
      simp only [List.map_cons, List.nodup_cons] at hpnd
      have hp1 : p.1 ∈ gs := hmem p (by simp)
      have hrestmem : ∀ q ∈ rest, q.1 ∈
          updateGrants gs p.1.id (fun x => { x with balance := p.1.balance - p.2, updatedAt := now }) := by
        intro q hq
        refine mem_updateGrants_of_ne (hmem q (by simp [hq])) ?_
        intro hEq
        exact hpnd.1 (hEq ▸ List.mem_map_of_mem _ hq)
      have hnd' : GrantIdsNodup
          (updateGrants gs p.1.id (fun x => { x with balance := p.1.balance - p.2, updatedAt := now })) :=
        GrantIdsNodup_updateGrants (fun x => rfl) hnd
      simp only [applyPlan, List.foldl_cons] at ih ⊢
      rw [ih _ hnd' hrestmem hpnd.2,
        sum_map_updateGrants (balContrib u) hnd hp1]
      by_cases hu : p.1.userId = u <;>
        simp [List.filter_cons, hu, balContrib] <;> ring

/-- The log rows of a plan contribute the negated planned total to the
user's ledger sum (for the `consumed` and `held` actions). -/
theorem planLogs_contrib (action : LogAction) (now : Int) (u0 e : String)
    (reason metadata : Option String) (u : String)
    (haction : action = LogAction.consumed ∨ action = LogAction.held) :
    ∀ (plan : List (Grant × Int)) (n : Nat), (∀ p ∈ plan, 0 ≤ p.2) →
      ((planLogs action now u0 e reason metadata n plan).map (logContrib u)).sum =
        if u0 = u then -((plan.map (fun p => p.2)).sum) else 0 := by
  intro plan
  induction plan with
  | nil => intro n _; simp [planLogs]
  | cons p rest ih =>
      intro n hpos
      obtain ⟨g, d⟩ := p
      have hd : 0 ≤ d := hpos (g, d) (by simp)
      have habs : |(-d)| = d := by
        rw [abs_neg, abs_of_nonneg hd]
      simp only [planLogs, List.map_cons, List.sum_cons,
        ih (n + 1) (fun q hq => hpos q (by simp [hq]))]
      rcases haction with ha | ha <;> subst ha <;>
        by_cases hu : u0 = u <;>
        simp [logContrib, hu, habs] <;> ring

/-! ### In-place conversions of held rows -/

/-- Auto-confirming a held row keeps its ledger weight (held and consumed
rows weigh `-|amountChange|` alike, and the amount is untouched). -/
theorem logContrib_confirmHeldRow (u0 e : String) (reason metadata : Option String)
    (u : String) (l : LogEntry) :
    logContrib u (confirmHeldRow u0 e reason metadata l) = logContrib u l := by
  by_cases h : eventLogMatch u0 e .held l
  · have h' := h
    simp only [eventLogMatch, Bool.and_eq_true, decide_eq_true_eq] at h'
    simp [confirmHeldRow, h, logContrib, h'.2]
  · simp [confirmHeldRow, h]

/-- Confirming a held row keeps its ledger weight. -/
theorem logContrib_confirmHoldRow (u0 e : String) (reason : Option String)
    (u : String) (l : LogEntry) :
    logContrib u (confirmHoldRow u0 e reason l) = logContrib u l := by
  by_cases h : eventLogMatch u0 e .held l
  · have h' := h
    simp only [eventLogMatch, Bool.and_eq_true, decide_eq_true_eq] at h'
    simp [confirmHoldRow, h, logContrib, h'.2]
  · simp [confirmHoldRow, h]

/-- Releasing a held row raises its ledger weight by `|amountChange|` (the
row stops weighing `-|amountChange|` and released rows weigh nothing). -/
theorem logContrib_releaseHeldRow (u0 e : String) (reason : Option String)
    (u : String) (l : LogEntry) :
    logContrib u (releaseHeldRow u0 e reason l) =
      logContrib u l +
        (if eventLogMatch u0 e .held l ∧ l.userId = u then |l.amountChange| else 0) := by
  by_cases h : eventLogMatch u0 e .held l
  · have h' := h
    simp only [eventLogMatch, Bool.and_eq_true, decide_eq_true_eq] at h'
    by_cases hu : l.userId = u <;> simp [releaseHeldRow, h, logContrib, h'.2, hu]
  · simp [releaseHeldRow, h]

/-- Releasing all held rows of an event raises the owner's ledger sum by the
total absolute held amount. -/
theorem sum_map_releaseHeldRow (u0 e : String) (reason : Option String) (u : String) :
    ∀ ls : List LogEntry,
      ((ls.map (releaseHeldRow u0 e reason)).map (logContrib u)).sum =
        (ls.map (logContrib u)).sum +
          (if u0 = u then
            ((ls.filter (eventLogMatch u0 e .held)).map (fun l => |l.amountChange|)).sum
          else 0) := by
  intro ls
  induction ls with
  | nil => simp
  | cons l t ih =>
      simp only [List.map_cons, List.sum_cons, logContrib_releaseHeldRow, ih]
      by_cases hm : eventLogMatch u0 e .held l
      · have h' := hm
        simp only [eventLogMatch, Bool.and_eq_true, decide_eq_true_eq] at h'
        by_cases h0 : u0 = u
        · subst h0
          simp [List.filter_cons, hm, h'.1.1]
          ring
        · have hlu' : ¬(l.userId = u) := by rw [h'.1.1]; exact h0
          simp [List.filter_cons, hm, h0, hlu']
      · by_cases h0 : u0 = u
        · subst h0
          simp [List.filter_cons, hm]
          try ring
        · simp [List.filter_cons, hm, h0]

/-! ### Balance restoration loops (release and refund) -/

/-- Restoration keeps every row's `(id, userId)` key. -/
theorem restoreHeldBalances_keys (now : Int) :
    ∀ (ls : List LogEntry) (gs : List Grant),
      grantKeys (restoreHeldBalances now gs ls) = grantKeys gs := by
  intro ls
  induction ls with
  | nil => intro gs; rfl
  | cons l rest ih =>
      intro gs
      cases hc : l.creditGrantId with
      | none => simp only [restoreHeldBalances, hc]; exact ih gs
      | some gid =>
          simp only [restoreHeldBalances, hc]
          rw [ih]
          exact grantKeys_updateGrants (fun x => ⟨rfl, rfl⟩)

/-- Restoring a batch of rows that all reference live same-user grants raises
the owner users' balance sums by the restored amounts. -/
theorem restoreHeldBalances_balSum (now : Int) (u : String) :
    ∀ (ls : List LogEntry) (gs : List Grant), GrantIdsNodup gs →
      (∀ l ∈ ls, ∃ gid, l.creditGrantId = some gid ∧ (gid, l.userId) ∈ grantKeys gs) →
      ((restoreHeldBalances now gs ls).map (balContrib u)).sum =
        (gs.map (balContrib u)).sum +
          ((ls.filter (fun l => l.userId = u)).map (fun l => |l.amountChange|)).sum := by
  intro ls
  induction ls with
  | nil => intro gs _ _; simp [restoreHeldBalances]
  | cons l rest ih =>
      intro gs hnd href
      obtain ⟨gid, hc, hk⟩ := href l (by simp)
      obtain ⟨r, hr, hrid, hruser⟩ := mem_grantKeys_iff.mp hk
      simp only [restoreHeldBalances, hc]
      have hkeq : grantKeys (updateGrants gs gid
          (fun x => { x with balance := x.balance + |l.amountChange|, updatedAt := now })) =
          grantKeys gs :=
        grantKeys_updateGrants (fun x => ⟨rfl, rfl⟩)
      have hnd' : GrantIdsNodup (updateGrants gs gid
          (fun x => { x with balance := x.balance + |l.amountChange|, updatedAt := now })) :=
        GrantIdsNodup_updateGrants (fun x => rfl) hnd
      have href' : ∀ l' ∈ rest, ∃ g', l'.creditGrantId = some g' ∧
          (g', l'.userId) ∈ grantKeys (updateGrants gs gid
            (fun x => { x with balance := x.balance + |l.amountChange|, updatedAt := now })) := by
        intro l' hl'
        rw [hkeq]
        exact href l' (by simp [hl'])
      rw [ih _ hnd' href']
      have hupd := sum_map_updateGrants
        (f := fun x => { x with balance := x.balance + |l.amountChange|, updatedAt := now })
        (balContrib u) hnd hr
      rw [hrid] at hupd
      rw [hupd, List.filter_cons]
      by_cases hu : l.userId = u
      · have hru : r.userId = u := hruser.trans hu
        simp [balContrib, hru, hu]
        ring
      · have hru : ¬(r.userId = u) := fun h => hu (hruser.symm.trans h)
        simp [balContrib, hru, hu]

/-- Per-grant effect of a restoration batch: each grant's balance grows by
the restored amounts of exactly the rows referencing it. -/
theorem restoreHeldBalances_per_grant (now : Int) :
    ∀ (ls : List LogEntry) (gs : List Grant) (x : Grant), GrantIdsNodup gs → x ∈ gs →
      ∃ x', x' ∈ restoreHeldBalances now gs ls ∧ x'.id = x.id ∧
        x'.balance = x.balance +
          ((ls.filter (fun l => l.creditGrantId = some x.id)).map
            (fun l => |l.amountChange|)).sum := by
  intro ls
  induction ls with
  | nil => intro gs x _ hx; exact ⟨x, hx, rfl, by simp [restoreHeldBalances]⟩
  | cons l rest ih =>
      intro gs x hnd hx
      cases hc : l.creditGrantId with
      | none =>
          simp only [restoreHeldBalances, hc]
          obtain ⟨x', h1, h2, h3⟩ := ih gs x hnd hx
          refine ⟨x', h1, h2, ?_⟩
          simp [List.filter_cons, hc, h3]
      | some gid =>
          simp only [restoreHeldBalances, hc]
          have hnd' : GrantIdsNodup (updateGrants gs gid
              (fun y => { y with balance := y.balance + |l.amountChange|, updatedAt := now })) :=
            GrantIdsNodup_updateGrants (fun y => rfl) hnd
          by_cases hgx : gid = x.id
          · have hx1 : ({ x with balance := x.balance + |l.amountChange|, updatedAt := now }) ∈
                updateGrants gs gid
                  (fun y => { y with balance := y.balance + |l.amountChange|, updatedAt := now }) :=
              fmem_updateGrants hx hgx.symm
            obtain ⟨x', h1, h2, h3⟩ := ih
              (updateGrants gs gid
                (fun y => { y with balance := y.balance + |l.amountChange|, updatedAt := now }))
              ({ x with balance := x.balance + |l.amountChange|, updatedAt := now })
              hnd' hx1
            refine ⟨x', h1, h2, ?_⟩
            simp only [List.filter_cons, hc]
            simp at h3 ⊢
            rw [h3, if_pos (by simp [hgx])]
            simp
            ring
          · have hx' : x ∈ updateGrants gs gid
                (fun y => { y with balance := y.balance + |l.amountChange|, updatedAt := now }) :=
              mem_updateGrants_of_ne hx (fun h => hgx h.symm)
            obtain ⟨x', h1, h2, h3⟩ := ih
              (updateGrants gs gid
                (fun y => { y with balance := y.balance + |l.amountChange|, updatedAt := now }))
              x hnd' hx'
            refine ⟨x', h1, h2, ?_⟩
            simp only [List.filter_cons, hc]
            have hne : ¬(some gid = some x.id) := by simpa using hgx
            simp [hne, h3]

/-! ### The refund loop -/

/-- The refund loop separates into the balance restorations and the appended
refunded rows (one fresh id per row). -/
theorem refundLoop_eq (now : Int) (u e : String) (reason metadata : Option String) :
    ∀ (ls : List LogEntry) (st : LedgerState),
      refundLoop now u e reason metadata ls st =
        { grants := restoreHeldBalances now st.grants ls
          logs := st.logs ++ refundRows now u e reason metadata st.nextId ls
          nextId := st.nextId + ls.length } := by
  intro ls
  induction ls with
  | nil => intro st; simp [refundLoop, restoreHeldBalances, refundRows]
  | cons cl rest ih =>
      intro st
      cases hc : cl.creditGrantId with
      | none =>
          simp only [refundLoop, hc, ih, refundRows, restoreHeldBalances,
            List.append_assoc, List.singleton_append, List.length_cons]
          congr 1
          omega
      | some gid =>
          simp only [refundLoop, hc, ih, refundRows, restoreHeldBalances,
            List.append_assoc, List.singleton_append, List.length_cons]
          congr 1
          omega

/-- Refund rows carry the owner's restored amounts as positive refunded
weight on the ledger sum. -/
theorem refundRows_contrib (now : Int) (u0 e : String) (reason metadata : Option String)
    (u : String) :
    ∀ (ls : List LogEntry) (n : Nat),
      ((refundRows now u0 e reason metadata n ls).map (logContrib u)).sum =
        if u0 = u then ((ls.map (fun l => |l.amountChange|)).sum) else 0 := by
  intro ls
  induction ls with
  | nil => intro n; simp [refundRows]
  | cons cl rest ih =>
      intro n
      simp only [refundRows, List.map_cons, List.sum_cons, ih (n + 1)]
      by_cases hu : u0 = u <;> simp [logContrib, hu]

/-- Each refund row reuses the grant reference of its consumed row and is
owned by the refunded user. -/
theorem refundRows_refs (now : Int) (u0 e : String) (reason metadata : Option String) :
    ∀ (ls : List LogEntry) (n : Nat), ∀ row ∈ refundRows now u0 e reason metadata n ls,
      ∃ cl ∈ ls, row.creditGrantId = cl.creditGrantId ∧ row.userId = u0 := by
  intro ls
  induction ls with
  | nil => intro n row h; simp [refundRows] at h
  | cons cl rest ih =>
      intro n row h
      simp only [refundRows, List.mem_cons] at h
      rcases h with h | h
      · exact ⟨cl, by simp, by simp [h]⟩
      · obtain ⟨cl', h1, h2⟩ := ih (n + 1) row h
        exact ⟨cl', by simp [h1], h2⟩

/-- Shape of the refund rows: one refunded row per consumed row, with the
absolute consumed amount, the consumed row's grant and type, and the event. -/
theorem refundRows_forall₂ (now : Int) (u0 e : String) (reason metadata : Option String) :
    ∀ (ls : List LogEntry) (n : Nat),
      List.Forall₂
        (fun row cl => row.action = LogAction.refunded ∧
          row.amountChange = |cl.amountChange| ∧
          row.creditGrantId = cl.creditGrantId ∧ row.grantType = cl.grantType ∧
          row.eventId = some e ∧ row.userId = u0)
        (refundRows now u0 e reason metadata n ls) ls := by
  intro ls
  induction ls with
  | nil => intro n; simp [refundRows]
  | cons cl rest ih =>
      intro n
      simp only [refundRows]
      exact List.Forall₂.cons (by simp) (ih (n + 1))

/-! ### The expiration loop -/

/-- Under unique ids, when every scanned candidate is still present verbatim
with positive balance, the expiration loop zeroes exactly the candidates,
stages one expired row per candidate, and totals their balances. -/
theorem expireLoop_eq (now : Int) (u : String) :
    ∀ (gs : List Grant) (st : LedgerState) (staged : List LogEntry) (total : Int),
      GrantIdsNodup st.grants → (∀ g ∈ gs, g ∈ st.grants) →
      (∀ g ∈ gs, 0 < g.balance) → (gs.map (fun g => g.id)).Nodup →
      expireLoop now u gs st staged total =
        ({ st with grants := zeroAll now st.grants gs, nextId := st.nextId + gs.length },
          staged ++ expireRows now u st.nextId gs,
          total + (gs.map (fun g => g.balance)).sum) := by
  intro gs
  induction gs with
  | nil => intro st staged total _ _ _ _; simp [expireLoop, zeroAll, expireRows]
  | cons g rest ih =>
      intro st staged total hnd hmem hpos hgnd
      simp only [List.map_cons, List.nodup_cons] at hgnd
      have hfind : st.grants.find? (fun x => x.id = g.id) = some g :=
        find?_id_of_nodup hnd (hmem g (by simp))
      have hgb : ¬(g.balance ≤ 0) := by
        have := hpos g (by simp)
        omega
      have hnd1 : GrantIdsNodup (updateGrants st.grants g.id
          (fun x => { x with balance := 0, updatedAt := now })) :=
        GrantIdsNodup_updateGrants (fun x => rfl) hnd
      have hmem1 : ∀ g' ∈ rest, g' ∈ updateGrants st.grants g.id
          (fun x => { x with balance := 0, updatedAt := now }) := by
        intro g' hg'
        refine mem_updateGrants_of_ne (hmem g' (by simp [hg'])) ?_
        intro hEq
        exact hgnd.1 (hEq ▸ List.mem_map_of_mem _ hg')
      simp only [expireLoop, hfind, if_neg hgb]
      rw [ih _ _ _ hnd1 hmem1 (fun x hx => hpos x (by simp [hx])) hgnd.2]
      simp only [zeroAll, List.foldl_cons, expireRows, List.append_assoc,
        List.singleton_append, List.length_cons, List.map_cons, List.sum_cons]
      have h1 : st.nextId + 1 + rest.length = st.nextId + (rest.length + 1) := by
        omega
      have h2 : total + g.balance + (rest.map (fun x => x.balance)).sum =
          total + (g.balance + (rest.map (fun x => x.balance)).sum) := by
        ring
      rw [h1, h2]

/-- Staged expiration rows weigh the negated locked balances on the owner's
ledger sum. -/
theorem expireRows_contrib (now : Int) (u0 : String) (u : String) :
    ∀ (gs : List Grant) (n : Nat), (∀ g ∈ gs, 0 ≤ g.balance) →
      ((expireRows now u0 n gs).map (logContrib u)).sum =
        if u0 = u then -((gs.map (fun g => g.balance)).sum) else 0 := by
  intro gs
  induction gs with
  | nil => intro n _; simp [expireRows]
  | cons g rest ih =>
      intro n hpos
      have habs : |(-g.balance)| = g.balance := by
        rw [abs_neg, abs_of_nonneg (hpos g (by simp))]
      simp only [expireRows, List.map_cons, List.sum_cons,
        ih (n + 1) (fun x hx => hpos x (by simp [hx]))]
      by_cases hu : u0 = u <;> simp [logContrib, hu, habs] <;> try ring

/-- Each staged expiration row references its zeroed grant and its owner. -/
theorem expireRows_refs (now : Int) (u0 : String) :
    ∀ (gs : List Grant) (n : Nat), ∀ row ∈ expireRows now u0 n gs,
      ∃ g ∈ gs, row.creditGrantId = some g.id ∧ row.userId = u0 := by
  intro gs
  induction gs with
  | nil => intro n row h; simp [expireRows] at h
  | cons g rest ih =>
      intro n row h
      simp only [expireRows, List.mem_cons] at h
      rcases h with h | h
      · exact ⟨g, by simp, by simp [h]⟩
      · obtain ⟨g', h1, h2⟩ := ih (n + 1) row h
        exact ⟨g', by simp [h1], h2⟩

/-- Zeroing keeps every row's `(id, userId)` key. -/
theorem zeroAll_keys (now : Int) :
    ∀ (sel : List Grant) (gs : List Grant),
      grantKeys (zeroAll now gs sel) = grantKeys gs := by
  intro sel
  induction sel with
  | nil => intro gs; rfl
  | cons s rest ih =>
      intro gs
      simp only [zeroAll, List.foldl_cons] at ih ⊢
      rw [ih]
      exact grantKeys_updateGrants (fun x => ⟨rfl, rfl⟩)

/-- Zeroing a selection of member rows removes exactly the selected balances
from each user's balance sum. -/
theorem zeroAll_balSum (now : Int) (u : String) :
    ∀ (sel : List Grant) (gs : List Grant), GrantIdsNodup gs →
      (∀ s ∈ sel, s ∈ gs) → (sel.map (fun s => s.id)).Nodup →
      ((zeroAll now gs sel).map (balContrib u)).sum =
        (gs.map (balContrib u)).sum -
          ((sel.filter (fun s => s.userId = u)).map (fun s => s.balance)).sum := by
  intro sel
  induction sel with
  | nil => intro gs _ _ _; simp [zeroAll]
  | cons s rest ih =>
      intro gs hnd hmem hsnd
      simp only [List.map_cons, List.nodup_cons] at hsnd
      have hs : s ∈ gs := hmem s (by simp)
      have hrestmem : ∀ q ∈ rest, q ∈
          updateGrants gs s.id (fun x => { x with balance := 0, updatedAt := now }) := by
        intro q hq
        refine mem_updateGrants_of_ne (hmem q (by simp [hq])) ?_
        intro hEq
        exact hsnd.1 (hEq ▸ List.mem_map_of_mem _ hq)
      have hnd' : GrantIdsNodup
          (updateGrants gs s.id (fun x => { x with balance := 0, updatedAt := now })) :=
        GrantIdsNodup_updateGrants (fun x => rfl) hnd
      simp only [zeroAll, List.foldl_cons] at ih ⊢
      rw [ih _ hnd' hrestmem hsnd.2, sum_map_updateGrants (balContrib u) hnd hs]
      by_cases hu : s.userId = u <;>
        simp [List.filter_cons, hu, balContrib] <;> try ring

/-! ### Glue lemmas for the invariant proofs -/

/-- Equal key lists transfer id uniqueness. -/
theorem GrantIdsNodup_of_keys_eq {gs gs' : List Grant}
    (h : grantKeys gs' = grantKeys gs) (hnd : GrantIdsNodup gs) :
    GrantIdsNodup gs' := by
  unfold GrantIdsNodup
  rw [ids_eq_keys_fst, h, ← ids_eq_keys_fst]
  exact hnd

/-- Equal key lists transfer the fresh-id bound (to any larger supply). -/
theorem idBound_of_keys_eq {gs gs' : List Grant} {n n' : Nat}
    (h : grantKeys gs' = grantKeys gs) (hb : ∀ g ∈ gs, g.id < n) (hle : n ≤ n') :
    ∀ g ∈ gs', g.id < n' := by
  intro g hg
  have hmem : g.id ∈ (grantKeys gs').map (fun k => k.1) :=
    List.mem_map_of_mem _ (List.mem_map_of_mem _ hg)
  rw [h, ← ids_eq_keys_fst] at hmem
  obtain ⟨g0, hg0, hid⟩ := List.mem_map.mp hmem
  have := hb g0 hg0
  omega

/-- Membership facts of the per-event log filter. -/
theorem eventLogs_spec {st : LedgerState} {u e : String} {a : LogAction}
    {l : LogEntry} (h : l ∈ eventLogs st u e a) :
    l ∈ st.logs ∧ l.userId = u ∧ l.eventId = some e ∧ l.action = a := by
  simp only [eventLogs, List.mem_filter, eventLogMatch, Bool.and_eq_true,
    decide_eq_true_eq] at h
  exact ⟨h.1, h.2.1.1, h.2.1.2, h.2.2⟩

/-- Membership facts of the ordered usable-grant selection. -/
theorem mem_orderedUsable {st : LedgerState} {now : Int} {u : String}
    {g : Grant} (h : g ∈ orderedUsableGrants st now u) :
    g ∈ st.grants ∧ g.userId = u ∧ 0 < g.balance := by
  rw [orderedUsableGrants, List.mem_insertionSort] at h
  simp only [usableGrants, List.mem_filter, Bool.and_eq_true, decide_eq_true_eq,
    isUsable] at h
  exact ⟨h.1, h.2.1, h.2.2.1.1.2⟩

/-- The ordered usable selection inherits id uniqueness from the table. -/
theorem orderedUsable_ids_nodup {st : LedgerState} {now : Int} {u : String}
    (hnd : GrantIdsNodup st.grants) :
    ((orderedUsableGrants st now u).map (fun g => g.id)).Nodup := by
  have hperm : List.Perm (orderedUsableGrants st now u) (usableGrants st now u) :=
    List.perm_insertionSort wfLE _
  have hfil : ((usableGrants st now u).map (fun g => g.id)).Nodup :=
    hnd.sublist ((List.filter_sublist _).map _)
  exact ((hperm.map (fun g => g.id)).nodup_iff).mpr hfil

/-- Each planned log row references its planned grant and the charged user. -/
theorem planLogs_refs (action : LogAction) (now : Int) (u0 e : String)
    (reason metadata : Option String) :
    ∀ (plan : List (Grant × Int)) (n : Nat),
      ∀ row ∈ planLogs action now u0 e reason metadata n plan,
        ∃ p ∈ plan, row.creditGrantId = some p.1.id ∧ row.userId = u0 := by
  intro plan
  induction plan with
  | nil => intro n row h; simp [planLogs] at h
  | cons p rest ih =>
      intro n row h
      obtain ⟨g, d⟩ := p
      simp only [planLogs, List.mem_cons] at h
      rcases h with h | h
      · exact ⟨(g, d), by simp, by simp [h]⟩
      · obtain ⟨p', h1, h2⟩ := ih (n + 1) row h
        exact ⟨p', by simp [h1], h2⟩

/-- A plan whose grants all belong to one user deducts only from that user. -/
theorem plan_filter_user (u0 u : String) :
    ∀ plan : List (Grant × Int), (∀ p ∈ plan, p.1.userId = u0) →
      ((plan.filter (fun p => p.1.userId = u)).map (fun p => p.2)).sum =
        if u0 = u then (plan.map (fun p => p.2)).sum else 0 := by
  intro plan
  induction plan with
  | nil => simp
  | cons p rest ih =>
      intro hall
      have hp : p.1.userId = u0 := hall p (by simp)
      rw [List.filter_cons]
      by_cases h0 : u0 = u
      · subst h0
        simp [hp, ih (fun q hq => hall q (by simp [hq]))]
      · have : ¬(p.1.userId = u) := by rw [hp]; exact h0
        simp [this, ih (fun q hq => hall q (by simp [hq])), h0]

/-- Log rows all owned by one user restore only that user. -/
theorem logs_filter_user (u0 u : String) :
    ∀ ls : List LogEntry, (∀ l ∈ ls, l.userId = u0) →
      ((ls.filter (fun l => l.userId = u)).map (fun l => |l.amountChange|)).sum =
        if u0 = u then (ls.map (fun l => |l.amountChange|)).sum else 0 := by
  intro ls
  induction ls with
  | nil => simp
  | cons l rest ih =>
      intro hall
      have hl : l.userId = u0 := hall l (by simp)
      rw [List.filter_cons]
      by_cases h0 : u0 = u
      · subst h0
        simp [hl, ih (fun q hq => hall q (by simp [hq]))]
      · have : ¬(l.userId = u) := by rw [hl]; exact h0
        simp [this, ih (fun q hq => hall q (by simp [hq])), h0]

/-- Grant rows all owned by one user are zeroed only against that user. -/
theorem grants_filter_user (u0 u : String) :
    ∀ sel : List Grant, (∀ s ∈ sel, s.userId = u0) →
      ((sel.filter (fun s => s.userId = u)).map (fun s => s.balance)).sum =
        if u0 = u then (sel.map (fun s => s.balance)).sum else 0 := by
  intro sel
  induction sel with
  | nil => simp
  | cons s rest ih =>
      intro hall
      have hs : s.userId = u0 := hall s (by simp)
      rw [List.filter_cons]
      by_cases h0 : u0 = u
      · subst h0
        simp [hs, ih (fun q hq => hall q (by simp [hq]))]
      · have : ¬(s.userId = u) := by rw [hs]; exact h0
        simp [this, ih (fun q hq => hall q (by simp [hq])), h0]

/-- Auto-confirmation keeps a row's grant reference and owner. -/
theorem confirmHeldRow_fields (u0 e : String) (reason metadata : Option String)
    (l : LogEntry) :
    (confirmHeldRow u0 e reason metadata l).creditGrantId = l.creditGrantId ∧
      (confirmHeldRow u0 e reason metadata l).userId = l.userId := by
  by_cases h : eventLogMatch u0 e .held l <;> simp [confirmHeldRow, h]

/-- Confirmation keeps a row's grant reference and owner. -/
theorem confirmHoldRow_fields (u0 e : String) (reason : Option String)
    (l : LogEntry) :
    (confirmHoldRow u0 e reason l).creditGrantId = l.creditGrantId ∧
      (confirmHoldRow u0 e reason l).userId = l.userId := by
  by_cases h : eventLogMatch u0 e .held l <;> simp [confirmHoldRow, h]

/-- Release keeps a row's grant reference and owner. -/
theorem releaseHeldRow_fields (u0 e : String) (reason : Option String)
    (l : LogEntry) :
    (releaseHeldRow u0 e reason l).creditGrantId = l.creditGrantId ∧
      (releaseHeldRow u0 e reason l).userId = l.userId := by
  by_cases h : eventLogMatch u0 e .held l <;> simp [releaseHeldRow, h]

/-! ### Invariant preservation, operation by operation -/

/-- A waterfall run over the ordered usable selection preserves the
invariant, whichever of the two actions it logs. -/
theorem waterfall_inv (action : LogAction) (now : Int) (u0 e : String)
    (reason metadata : Option String) (st : LedgerState) (amount : Int)
    (haction : action = LogAction.consumed ∨ action = LogAction.held)
    (hInv : Inv st) :
    Inv (waterfall action now u0 e reason metadata
      (orderedUsableGrants st now u0) amount st) := by
  obtain ⟨hcons, href, hnd, hbound⟩ := hInv
  rw [waterfall_eq_plan]
  have hbalpos : ∀ g ∈ orderedUsableGrants st now u0, 0 < g.balance :=
    fun g hg => (mem_orderedUsable hg).2.2
  have hmemplan : ∀ p ∈ waterfallPlan (orderedUsableGrants st now u0) amount,
      p.1 ∈ st.grants :=
    fun p hp => (mem_orderedUsable (waterfallPlan_fst_mem hp)).1
  have huserplan : ∀ p ∈ waterfallPlan (orderedUsableGrants st now u0) amount,
      p.1.userId = u0 :=
    fun p hp => (mem_orderedUsable (waterfallPlan_fst_mem hp)).2.1
  have hplannd : ((waterfallPlan (orderedUsableGrants st now u0) amount).map
      (fun p => p.1.id)).Nodup :=
    waterfallPlan_ids_nodup (orderedUsable_ids_nodup hnd)
  have hdpos : ∀ p ∈ waterfallPlan (orderedUsableGrants st now u0) amount, 0 ≤ p.2 :=
    fun p hp => (waterfallPlan_pos _ amount hbalpos p hp).le
  have hkeys : grantKeys (applyPlan now st.grants
      (waterfallPlan (orderedUsableGrants st now u0) amount)) = grantKeys st.grants :=
    applyPlan_keys now _ st.grants
  refine ⟨?_, ?_, ?_, ?_⟩
  · intro u
    show ((applyPlan now st.grants _).map (balContrib u)).sum = _
    rw [List.map_append, List.sum_append,
      applyPlan_balSum u now _ st.grants hnd hmemplan hplannd,
      plan_filter_user u0 u _ huserplan,
      planLogs_contrib action now u0 e reason metadata u haction _ st.nextId hdpos,
      hcons u]
    by_cases h0 : u0 = u <;> simp [h0] <;> try ring
  · intro l hl
    simp only [List.mem_append] at hl
    rcases hl with hl | hl
    · obtain ⟨gid, hc, hk⟩ := href l hl
      exact ⟨gid, hc, by rw [hkeys]; exact hk⟩
    · obtain ⟨p, hp, hcg, hu⟩ :=
        planLogs_refs action now u0 e reason metadata _ st.nextId l hl
      refine ⟨p.1.id, hcg, ?_⟩
      rw [hkeys, hu]
      exact mem_grantKeys_iff.mpr ⟨p.1, hmemplan p hp, rfl, huserplan p hp⟩
  · exact GrantIdsNodup_of_keys_eq hkeys hnd
  · exact idBound_of_keys_eq hkeys hbound (Nat.le_add_right _ _)

/-- A weight-preserving, reference-preserving in-place log rewrite keeps the
invariant. -/
theorem logsMap_inv (st : LedgerState) (conv : LogEntry → LogEntry)
    (hcontrib : ∀ u l, logContrib u (conv l) = logContrib u l)
    (hfields : ∀ l, (conv l).creditGrantId = l.creditGrantId ∧ (conv l).userId = l.userId)
    (hInv : Inv st) : Inv { st with logs := st.logs.map conv } := by
  obtain ⟨hcons, href, hnd, hbound⟩ := hInv
  refine ⟨?_, ?_, hnd, hbound⟩
  · intro u
    show _ = ((st.logs.map conv).map (logContrib u)).sum
    rw [List.map_map,
      show (logContrib u ∘ conv) = logContrib u from funext (hcontrib u)]
    exact hcons u
  · intro l hl
    obtain ⟨l0, hl0, rfl⟩ := List.mem_map.mp hl
    obtain ⟨gid, hc, hk⟩ := href l0 hl0
    exact ⟨gid, (hfields l0).1 ▸ hc, (hfields l0).2 ▸ hk⟩

/-- A successful `deductCredits` preserves the invariant. -/
theorem deductCredits_inv {st : LedgerState} {now : Int} {u : String} {amount : Int}
    {e : String} {reason metadata : Option String} {st' : LedgerState}
    (hInv : Inv st) (h : deductCredits st now u amount e reason metadata = .ok st') :
    Inv st' := by
  by_cases h1 : amount ≤ 0
  · simp [deductCredits, h1] at h
  · by_cases h2 : (eventLogs st u e .consumed).isEmpty = false
    · simp [deductCredits, h1, h2] at h
      exact h ▸ hInv
    · by_cases h3 : (eventLogs st u e .held).isEmpty = false
      · by_cases h4 : ((eventLogs st u e .held).map (fun l => |l.amountChange|)).sum = amount
        · simp [deductCredits, h1, h2, h3, h4] at h
          exact h ▸ logsMap_inv st _
            (fun v l => logContrib_confirmHeldRow u e reason metadata v l)
            (confirmHeldRow_fields u e reason metadata) hInv
        · simp [deductCredits, h1, h2, h3, h4] at h
      · by_cases h5 : ((orderedUsableGrants st now u).map (fun g => g.balance)).sum < amount
        · simp [deductCredits, h1, h2, h3, h5] at h
        · simp [deductCredits, h1, h2, h3, h5] at h
          exact h ▸ waterfall_inv .consumed now u e reason metadata st amount
            (Or.inl rfl) hInv

/-- A successful `holdCredits` preserves the invariant. -/
theorem holdCredits_inv {st : LedgerState} {now : Int} {u : String} {amount : Int}
    {e : String} {reason : Option String} {st' : LedgerState}
    (hInv : Inv st) (h : holdCredits st now u amount e reason = .ok st') :
    Inv st' := by
  by_cases h1 : amount ≤ 0
  · simp [holdCredits, h1] at h
  · by_cases h2 : (st.logs.filter (fun l =>
        eventLogMatch u e .held l || eventLogMatch u e .consumed l)).isEmpty = false
    · simp [holdCredits, h1, h2] at h
      exact h ▸ hInv
    · by_cases h5 : ((orderedUsableGrants st now u).map (fun g => g.balance)).sum < amount
      · simp [holdCredits, h1, h2, h5] at h
      · simp [holdCredits, h1, h2, h5] at h
        exact h ▸ waterfall_inv .held now u e
          (some (reason.getD "Credits held for pending operation")) none st amount
          (Or.inr rfl) hInv

/-- `confirmHold` preserves the invariant. -/
theorem confirmHold_inv {st : LedgerState} {u e : String} {reason : Option String}
    (hInv : Inv st) : Inv (confirmHold st u e reason) := by
  unfold confirmHold
  by_cases hemp : (eventLogs st u e .held).isEmpty
  · rw [if_pos hemp]
    exact hInv
  · rw [if_neg hemp]
    exact logsMap_inv st _
      (fun v l => logContrib_confirmHoldRow u e reason v l)
      (confirmHoldRow_fields u e reason) hInv

/-- `releaseCredits` preserves the invariant. -/
theorem releaseCredits_inv {st : LedgerState} {now : Int} {u0 e : String}
    {reason : Option String} (hInv : Inv st) :
    Inv (releaseCredits st now u0 e reason) := by
  obtain ⟨hcons, href, hnd, hbound⟩ := hInv
  unfold releaseCredits
  by_cases hemp : (eventLogs st u0 e .held).isEmpty
  · rw [if_pos hemp]
    exact ⟨hcons, href, hnd, hbound⟩
  · rw [if_neg hemp]
    have hrefs : ∀ l ∈ eventLogs st u0 e .held, ∃ gid,
        l.creditGrantId = some gid ∧ (gid, l.userId) ∈ grantKeys st.grants :=
      fun l hl => href l (eventLogs_spec hl).1
    have husers : ∀ l ∈ eventLogs st u0 e .held, l.userId = u0 :=
      fun l hl => (eventLogs_spec hl).2.1
    have hkeys : grantKeys (restoreHeldBalances now st.grants (eventLogs st u0 e .held)) =
        grantKeys st.grants :=
      restoreHeldBalances_keys now _ st.grants
    refine ⟨?_, ?_, GrantIdsNodup_of_keys_eq hkeys hnd,
      idBound_of_keys_eq hkeys hbound (Nat.le_refl _)⟩
    · intro u
      show ((restoreHeldBalances now st.grants (eventLogs st u0 e .held)).map
          (balContrib u)).sum =
        ((st.logs.map (releaseHeldRow u0 e reason)).map (logContrib u)).sum
      rw [restoreHeldBalances_balSum now u _ st.grants hnd hrefs,
        logs_filter_user u0 u _ husers, sum_map_releaseHeldRow u0 e reason u st.logs,
        hcons u]
      simp [eventLogs]
    · intro l hl
      obtain ⟨l0, hl0, rfl⟩ := List.mem_map.mp hl
      obtain ⟨gid, hc, hk⟩ := href l0 hl0
      refine ⟨gid, (releaseHeldRow_fields u0 e reason l0).1 ▸ hc, ?_⟩
      rw [(releaseHeldRow_fields u0 e reason l0).2, hkeys]
      exact hk

/-- A successful `refundCredits` preserves the invariant. -/
theorem refundCredits_inv {st : LedgerState} {now : Int} {u0 e : String}
    {reason metadata : Option String} {st' : LedgerState} (hInv : Inv st)
    (h : refundCredits st now u0 e reason metadata = .ok st') : Inv st' := by
  obtain ⟨hcons, href, hnd, hbound⟩ := hInv
  by_cases h1 : (eventLogs st u0 e .refunded).isEmpty = false
  · simp [refundCredits, h1] at h
    exact h ▸ ⟨hcons, href, hnd, hbound⟩
  · by_cases h2 : (eventLogs st u0 e .consumed).isEmpty
    · simp [refundCredits, h1, h2] at h
    · simp only [refundCredits, if_neg h1, if_neg h2] at h
      rw [refundLoop_eq] at h
      simp only [Except.ok.injEq] at h
      subst h
      have hrefs : ∀ l ∈ eventLogs st u0 e .consumed, ∃ gid,
          l.creditGrantId = some gid ∧ (gid, l.userId) ∈ grantKeys st.grants :=
        fun l hl => href l (eventLogs_spec hl).1
      have husers : ∀ l ∈ eventLogs st u0 e .consumed, l.userId = u0 :=
        fun l hl => (eventLogs_spec hl).2.1
      have hkeys : grantKeys (restoreHeldBalances now st.grants
          (eventLogs st u0 e .consumed)) = grantKeys st.grants :=
        restoreHeldBalances_keys now _ st.grants
      refine ⟨?_, ?_, GrantIdsNodup_of_keys_eq hkeys hnd,
        idBound_of_keys_eq hkeys hbound (Nat.le_add_right _ _)⟩
      · intro u
        show ((restoreHeldBalances now st.grants (eventLogs st u0 e .consumed)).map
            (balContrib u)).sum = _
        rw [restoreHeldBalances_balSum now u _ st.grants hnd hrefs,
          logs_filter_user u0 u _ husers, List.map_append, List.sum_append,
          refundRows_contrib now u0 e reason metadata u _ st.nextId, hcons u]
      · intro l hl
        simp only [List.mem_append] at hl
        rcases hl with hl | hl
        · obtain ⟨gid, hc, hk⟩ := href l hl
          exact ⟨gid, hc, by rw [hkeys]; exact hk⟩
        · obtain ⟨cl, hcl, hcg, hu⟩ :=
            refundRows_refs now u0 e reason metadata _ st.nextId l hl
          obtain ⟨gid, hc, hk⟩ := href cl (eventLogs_spec hcl).1
          refine ⟨gid, hcg ▸ hc, ?_⟩
          rw [hu, hkeys]
          rw [(eventLogs_spec hcl).2.1] at hk
          exact hk

/-- `processExpiredGrants` preserves the invariant. -/
theorem processExpiredGrants_inv {st : LedgerState} {now : Int} {u0 : String}
    (hInv : Inv st) : Inv (processExpiredGrants st now u0).1 := by
  obtain ⟨hcons, href, hnd, hbound⟩ := hInv
  unfold processExpiredGrants
  by_cases hemp : (st.grants.filter (expiredCandidateMatch now u0)).isEmpty
  · rw [if_pos hemp]
    exact ⟨hcons, href, hnd, hbound⟩
  · rw [if_neg hemp]
    have hcspec : ∀ g ∈ st.grants.filter (expiredCandidateMatch now u0),
        g ∈ st.grants ∧ g.userId = u0 ∧ 0 < g.balance := by
      intro g hg
      have h1 := List.mem_of_mem_filter hg
      have h2 := List.of_mem_filter hg
      simp only [expiredCandidateMatch, Bool.and_eq_true, decide_eq_true_eq] at h2
      exact ⟨h1, h2.1.1.1, h2.1.2⟩
    have hgnd : ((st.grants.filter (expiredCandidateMatch now u0)).map
        (fun g => g.id)).Nodup :=
      hnd.sublist ((List.filter_sublist _).map _)
    rw [expireLoop_eq now u0 _ st [] 0 hnd (fun g hg => (hcspec g hg).1)
      (fun g hg => (hcspec g hg).2.2) hgnd]
    show Inv ⟨zeroAll now st.grants (st.grants.filter (expiredCandidateMatch now u0)),
      st.logs ++ expireRows now u0 st.nextId (st.grants.filter (expiredCandidateMatch now u0)),
      st.nextId + (st.grants.filter (expiredCandidateMatch now u0)).length⟩
    have hkeys : grantKeys (zeroAll now st.grants
        (st.grants.filter (expiredCandidateMatch now u0))) = grantKeys st.grants :=
      zeroAll_keys now _ st.grants
    refine ⟨?_, ?_, GrantIdsNodup_of_keys_eq hkeys hnd,
      idBound_of_keys_eq hkeys hbound (Nat.le_add_right _ _)⟩
    · intro u
      show ((zeroAll now st.grants _).map (balContrib u)).sum = _
      rw [zeroAll_balSum now u _ st.grants hnd (fun g hg => (hcspec g hg).1) hgnd,
        grants_filter_user u0 u _ (fun g hg => (hcspec g hg).2.1),
        List.map_append, List.sum_append,
        expireRows_contrib now u0 u _ st.nextId (fun g hg => (hcspec g hg).2.2.le),
        hcons u]
      by_cases h0 : u0 = u <;> simp [h0] <;> try ring
    · intro l hl
      simp only [List.mem_append] at hl
      rcases hl with hl | hl
      · obtain ⟨gid, hc, hk⟩ := href l hl
        exact ⟨gid, hc, by rw [hkeys]; exact hk⟩
      · obtain ⟨g, hg, hcg, hu⟩ := expireRows_refs now u0 _ st.nextId l hl
        refine ⟨g.id, hcg, ?_⟩
        rw [hu, hkeys]
        exact mem_grantKeys_iff.mpr ⟨g, (hcspec g hg).1, rfl, (hcspec g hg).2.1⟩

/-- A successful `revokeGrant` preserves the invariant. -/
theorem revokeGrant_inv {st : LedgerState} {now : Int} {grantId : Nat}
    {reason metadata : Option String} {st' : LedgerState} {amt : Int}
    (hInv : Inv st) (h : revokeGrant st now grantId reason metadata = .ok (st', amt)) :
    Inv st' := by
  obtain ⟨hcons, href, hnd, hbound⟩ := hInv
  cases hf : st.grants.find? (fun g => g.id = grantId) with
  | none => simp [revokeGrant, hf] at h
  | some grant =>
      have hgmem : grant ∈ st.grants := List.mem_of_find?_eq_some hf
      have hgid : grant.id = grantId := by
        have := List.find?_some hf
        simpa using this
      by_cases hb : 0 < grant.balance
      · simp only [revokeGrant, hf, if_pos hb, Except.ok.injEq, Prod.mk.injEq] at h
        obtain ⟨h, -⟩ := h
        subst h
        have hkeys : grantKeys (updateGrants st.grants grantId
            (fun g => { g with balance := 0, isActive := false, updatedAt := now })) =
            grantKeys st.grants :=
          grantKeys_updateGrants (fun x => ⟨rfl, rfl⟩)
        refine ⟨?_, ?_, GrantIdsNodup_of_keys_eq hkeys hnd,
          idBound_of_keys_eq hkeys hbound (Nat.le_add_right _ _)⟩
        · intro u
          have hupd := sum_map_updateGrants
            (f := fun g => { g with balance := 0, isActive := false, updatedAt := now })
            (balContrib u) hnd hgmem
          rw [hgid] at hupd
          show ((updateGrants st.grants grantId _).map (balContrib u)).sum = _
          rw [hupd, List.map_append, List.sum_append, hcons u]
          have habs : |(-grant.balance)| = grant.balance := by
            rw [abs_neg, abs_of_nonneg hb.le]
          by_cases hu : grant.userId = u <;>
            simp [balContrib, logContrib, hu, habs] <;> try ring
        · intro l hl
          simp only [List.mem_append, List.mem_singleton] at hl
          rcases hl with hl | hl
          · obtain ⟨gid, hc, hk⟩ := href l hl
            exact ⟨gid, hc, by rw [hkeys]; exact hk⟩
          · subst hl
            refine ⟨grantId, rfl, ?_⟩
            show (grantId, grant.userId) ∈ _
            rw [hkeys]
            exact mem_grantKeys_iff.mpr ⟨grant, hgmem, hgid, rfl⟩
      · simp only [revokeGrant, hf, if_neg hb, Except.ok.injEq, Prod.mk.injEq] at h
        obtain ⟨h, -⟩ := h
        subst h
        have hkeys : grantKeys (updateGrants st.grants grantId
            (fun g => { g with isActive := false, updatedAt := now })) =
            grantKeys st.grants :=
          grantKeys_updateGrants (fun x => ⟨rfl, rfl⟩)
        refine ⟨?_, ?_, GrantIdsNodup_of_keys_eq hkeys hnd,
          idBound_of_keys_eq hkeys hbound (Nat.le_refl _)⟩
        · intro u
          have hupd := sum_map_updateGrants
            (f := fun g => { g with isActive := false, updatedAt := now })
            (balContrib u) hnd hgmem
          rw [hgid] at hupd
          show ((updateGrants st.grants grantId _).map (balContrib u)).sum = _
          rw [hupd, hcons u]
          by_cases hu : grant.userId = u <;> simp [balContrib, hu]
        · intro l hl
          obtain ⟨gid, hc, hk⟩ := href l hl
          exact ⟨gid, hc, by rw [hkeys]; exact hk⟩

/-- Appending a fresh grant with its matching granted row preserves the
invariant. -/
theorem insertGrant_inv {st : LedgerState} (hInv : Inv st) (g0 : Grant) (l0 : LogEntry)
    (hgid : g0.id = st.nextId) (hlg : l0.creditGrantId = some g0.id)
    (hlu : l0.userId = g0.userId) (hla : l0.action = .granted)
    (hamt : l0.amountChange = g0.balance) :
    Inv { grants := st.grants ++ [g0], logs := st.logs ++ [l0],
          nextId := st.nextId + 2 } := by
  obtain ⟨hcons, href, hnd, hbound⟩ := hInv
  refine ⟨?_, ?_, ?_, ?_⟩
  · intro v
    simp only [List.map_append, List.sum_append, List.map_cons, List.map_nil,
      List.sum_cons, List.sum_nil, hcons v]
    have hcb : balContrib v g0 = logContrib v l0 := by
      simp [balContrib, logContrib, hla, hlu, hamt]
    rw [hcb]
  · intro l hl
    simp only [List.mem_append, List.mem_singleton] at hl
    rcases hl with hl | hl
    · obtain ⟨gidr, hc, hk⟩ := href l hl
      refine ⟨gidr, hc, ?_⟩
      simp only [grantKeys, List.map_append]
      exact List.mem_append_left _ hk
    · subst hl
      refine ⟨g0.id, hlg, ?_⟩
      simp [grantKeys, hlu]
  · unfold GrantIdsNodup
    simp only [List.map_append, List.map_cons, List.map_nil]
    refine List.Nodup.append hnd (List.nodup_singleton _) ?_
    intro a ha hb
    simp only [List.mem_singleton] at hb
    obtain ⟨x0, hx0, hxid⟩ := List.mem_map.mp ha
    have := hbound x0 hx0
    omega
  · intro g hg
    show g.id < st.nextId + 2
    simp only [List.mem_append, List.mem_singleton] at hg
    rcases hg with hg | hg
    · have := hbound g hg
      omega
    · subst hg
      omega

/-- A successful `createGrant` preserves the invariant. -/
theorem createGrant_inv {st : LedgerState} {now : Int} {u ty : String} {amount : Int}
    {priority expiresAt effectiveAt : Option Int} {sourceRef : Option String}
    {st' : LedgerState} {gid : Nat} (hInv : Inv st)
    (h : createGrant st now u ty amount priority expiresAt effectiveAt sourceRef =
      .ok (st', gid)) : Inv st' := by
  by_cases h1 : amount ≤ 0
  · simp [createGrant, h1] at h
  · rcases hfind : sourceRef.bind
        (fun r => st.grants.find? (fun g => g.sourceRef = some r)) with _ | existing
    · simp only [createGrant, if_neg h1, hfind, Except.ok.injEq, Prod.mk.injEq] at h
      refine h.1 ▸ insertGrant_inv hInv _ _ rfl rfl rfl rfl rfl
    · simp only [createGrant, if_neg h1, hfind, Except.ok.injEq, Prod.mk.injEq] at h
      exact h.1 ▸ hInv

/-- Every operation preserves the invariant (errors roll back to the same
state). -/
theorem applyOp_inv (st : LedgerState) (op : Op) (hInv : Inv st) :
    Inv (applyOp st op) := by
  cases op with
  | createGrant now u ty amount prio exp eff ref =>
      simp only [applyOp]
      cases h : createGrant st now u ty amount prio exp eff ref with
      | ok p =>
          obtain ⟨st2, gid2⟩ := p
          exact createGrant_inv hInv h
      | error err => exact hInv
  | deductCredits now u amount e r m =>
      simp only [applyOp]
      cases h : deductCredits st now u amount e r m with
      | ok st2 => exact deductCredits_inv hInv h
      | error err => exact hInv
  | holdCredits now u amount e r =>
      simp only [applyOp]
      cases h : holdCredits st now u amount e r with
      | ok st2 => exact holdCredits_inv hInv h
      | error err => exact hInv
  | confirmHold u e r => exact confirmHold_inv hInv
  | releaseCredits now u e r => exact releaseCredits_inv hInv
  | refundCredits now u e r m =>
      simp only [applyOp]
      cases h : refundCredits st now u e r m with
      | ok st2 => exact refundCredits_inv hInv h
      | error err => exact hInv
  | processExpiredGrants now u => exact processExpiredGrants_inv hInv
  | revokeGrant now gid r m =>
      simp only [applyOp]
      cases h : revokeGrant st now gid r m with
      | ok p =>
          obtain ⟨st2, amt2⟩ := p
          exact revokeGrant_inv hInv h
      | error err => exact hInv

/-- The empty store satisfies the invariant. -/
theorem Inv_initState : Inv initState := by
  refine ⟨fun u => rfl, fun l hl => absurd hl (by simp [initState]), ?_, ?_⟩
  · simp [GrantIdsNodup, initState]
  · intro g hg
    simp [initState] at hg

/-- Any run of the engine from the empty store satisfies the invariant. -/
theorem runOps_inv (ops : List Op) : Inv (runOps ops) := by
  unfold runOps
  have hgen : ∀ (l : List Op) (st : LedgerState), Inv st → Inv (l.foldl applyOp st) := by
    intro l
    induction l with
    | nil => intro st h; exact h
    | cons op rest ih => intro st h; exact ih _ (applyOp_inv st op h)
  exact hgen ops initState Inv_initState

/-! ### Fresh-event runs of the two waterfall entry points -/

/-- Sorting does not change the usable balance total. -/
theorem orderedUsable_balSum (st : LedgerState) (now : Int) (u : String) :
    ((orderedUsableGrants st now u).map (fun g => g.balance)).sum =
      usableBalanceSum st now u :=
  ((List.perm_insertionSort wfLE (usableGrants st now u)).map (fun g => g.balance)).sum_eq

/-- On a fresh event with sufficient usable balance, `deductCredits` runs the
waterfall: its result is the planned balance updates plus one consumed row per
planned grant. -/
theorem deductCredits_fresh_eq (st : LedgerState) (now : Int) (u : String)
    (amount : Int) (e : String) (reason metadata : Option String)
    (hC : eventLogs st u e .consumed = []) (hH : eventLogs st u e .held = [])
    (hpos : 0 < amount) (hsuff : amount ≤ usableBalanceSum st now u) :
    deductCredits st now u amount e reason metadata =
      .ok { grants := applyPlan now st.grants
              (waterfallPlan (orderedUsableGrants st now u) amount)
            logs := st.logs ++ planLogs .consumed now u e reason metadata st.nextId
              (waterfallPlan (orderedUsableGrants st now u) amount)
            nextId := st.nextId +
              (waterfallPlan (orderedUsableGrants st now u) amount).length } := by
  have h1 : ¬(amount ≤ 0) := by omega
  have h2 : ¬((eventLogs st u e .consumed).isEmpty = false) := by simp [hC]
  have h3 : ¬((eventLogs st u e .held).isEmpty = false) := by simp [hH]
  have h5 : ¬(((orderedUsableGrants st now u).map (fun g => g.balance)).sum < amount) := by
    rw [orderedUsable_balSum]
    omega
  simp only [deductCredits, if_neg h1, if_neg h2, if_neg h3, if_neg h5]
  rw [waterfall_eq_plan]

/-- On a fresh event with sufficient usable balance, `holdCredits` runs the
same waterfall, logging held rows with the default hold reason. -/
theorem holdCredits_fresh_eq (st : LedgerState) (now : Int) (u : String)
    (amount : Int) (e : String) (reason : Option String)
    (hC : eventLogs st u e .consumed = []) (hH : eventLogs st u e .held = [])
    (hpos : 0 < amount) (hsuff : amount ≤ usableBalanceSum st now u) :
    holdCredits st now u amount e reason =
      .ok { grants := applyPlan now st.grants
              (waterfallPlan (orderedUsableGrants st now u) amount)
            logs := st.logs ++ planLogs .held now u e
              (some (reason.getD "Credits held for pending operation")) none st.nextId
              (waterfallPlan (orderedUsableGrants st now u) amount)
            nextId := st.nextId +
              (waterfallPlan (orderedUsableGrants st now u) amount).length } := by
  have h1 : ¬(amount ≤ 0) := by omega
  have h2 : ¬((st.logs.filter (fun l =>
      eventLogMatch u e .held l || eventLogMatch u e .consumed l)).isEmpty = false) := by
    have hcnil := List.filter_eq_nil_iff.mp hC
    have hhnil := List.filter_eq_nil_iff.mp hH
    have : st.logs.filter (fun l =>
        eventLogMatch u e .held l || eventLogMatch u e .consumed l) = [] := by
      refine List.filter_eq_nil_iff.mpr (fun l hl => ?_)
      have hc := hcnil l hl
      have hh := hhnil l hl
      simp only [Bool.or_eq_true]
      rintro (h | h)
      · exact hh h
      · exact hc h
    simp [this]
  have h5 : ¬(((orderedUsableGrants st now u).map (fun g => g.balance)).sum < amount) := by
    rw [orderedUsable_balSum]
    omega
  simp only [holdCredits, if_neg h1, if_neg h2, if_neg h5]
  rw [waterfall_eq_plan]

/-! ## Claim theorems -/

/-- C2: waterfall deduction order and amounts.  For a fresh event (no prior
consumed or held row for the user and eventId), a positive amount covered by
the usable balance makes `deductCredits` walk the usable grants in the order
priority ascending, then expiresAt ascending with null last, then createdAt
ascending (the selection is sorted under `wfLE` and is a permutation of the
usable grants); the resulting state applies the per-grant plan — each planned
grant loses `min(remaining, balance)` and gets exactly one consumed row with
`amountChange` the negative of that deduction — and the planned deductions are
positive and sum to the requested amount. -/
theorem C2_waterfall_order (st : LedgerState) (now : Int) (u : String)
    (amount : Int) (e : String) (reason metadata : Option String)
    (hC : eventLogs st u e .consumed = []) (hH : eventLogs st u e .held = [])
    (hpos : 0 < amount) (hsuff : amount ≤ usableBalanceSum st now u) :
    deductCredits st now u amount e reason metadata =
      .ok { grants := applyPlan now st.grants
              (waterfallPlan (orderedUsableGrants st now u) amount)
            logs := st.logs ++ planLogs .consumed now u e reason metadata st.nextId
              (waterfallPlan (orderedUsableGrants st now u) amount)
            nextId := st.nextId +
              (waterfallPlan (orderedUsableGrants st now u) amount).length } ∧
    (orderedUsableGrants st now u).Sorted wfLE ∧
    List.Perm (orderedUsableGrants st now u) (usableGrants st now u) ∧
    ((waterfallPlan (orderedUsableGrants st now u) amount).map (fun p => p.2)).sum =
      amount ∧
    (∀ p ∈ waterfallPlan (orderedUsableGrants st now u) amount, 0 < p.2) := by
  have hbalpos : ∀ g ∈ orderedUsableGrants st now u, 0 < g.balance :=
    fun g hg => (mem_orderedUsable hg).2.2
  refine ⟨deductCredits_fresh_eq st now u amount e reason metadata hC hH hpos hsuff,
    List.sorted_insertionSort wfLE _, List.perm_insertionSort wfLE _, ?_, ?_⟩
  · refine waterfallPlan_sum _ amount hbalpos hpos ?_
    rw [orderedUsable_balSum]
    exact hsuff
  · exact waterfallPlan_pos _ amount hbalpos

/-- C2 witness: in a store holding one 10-credit topup grant, deducting 3
under a fresh event satisfies the hypotheses and conclusions of
`C2_waterfall_order`. -/
theorem C2_waterfall_order_witness :
    (eventLogs (runOps grantOnlyOps) "u" "e1" .consumed = [] ∧
      eventLogs (runOps grantOnlyOps) "u" "e1" .held = [] ∧
      0 < (3 : Int) ∧ 3 ≤ usableBalanceSum (runOps grantOnlyOps) 1 "u") ∧
    (deductCredits (runOps grantOnlyOps) 1 "u" 3 "e1" none none =
      .ok { grants := applyPlan 1 (runOps grantOnlyOps).grants
              (waterfallPlan (orderedUsableGrants (runOps grantOnlyOps) 1 "u") 3)
            logs := (runOps grantOnlyOps).logs ++
              planLogs .consumed 1 "u" "e1" none none (runOps grantOnlyOps).nextId
                (waterfallPlan (orderedUsableGrants (runOps grantOnlyOps) 1 "u") 3)
            nextId := (runOps grantOnlyOps).nextId +
              (waterfallPlan (orderedUsableGrants (runOps grantOnlyOps) 1 "u") 3).length } ∧
      (orderedUsableGrants (runOps grantOnlyOps) 1 "u").Sorted wfLE ∧
      List.Perm (orderedUsableGrants (runOps grantOnlyOps) 1 "u")
        (usableGrants (runOps grantOnlyOps) 1 "u") ∧
      ((waterfallPlan (orderedUsableGrants (runOps grantOnlyOps) 1 "u") 3).map
        (fun p => p.2)).sum = 3 ∧
      (∀ p ∈ waterfallPlan (orderedUsableGrants (runOps grantOnlyOps) 1 "u") 3,
        0 < p.2)) :=
  ⟨⟨by decide, by decide, by decide, by decide⟩,
    C2_waterfall_order (runOps grantOnlyOps) 1 "u" 3 "e1" none none
      (by decide) (by decide) (by decide) (by decide)⟩

/-- C3: insufficient funds is atomic.  On a fresh event, a request strictly
above the usable balance makes both `deductCredits` and `holdCredits` fail
with `InsufficientCredits`, and the rolled-back call leaves the ledger state
exactly as before. -/
theorem C3_insufficient_atomic (st : LedgerState) (now : Int) (u : String)
    (amount : Int) (e : String) (reason metadata r2 : Option String)
    (hC : eventLogs st u e .consumed = []) (hH : eventLogs st u e .held = [])
    (hgt : usableBalanceSum st now u < amount) :
    deductCredits st now u amount e reason metadata = .error .insufficientCredits ∧
    holdCredits st now u amount e r2 = .error .insufficientCredits ∧
    applyOp st (.deductCredits now u amount e reason metadata) = st ∧
    applyOp st (.holdCredits now u amount e r2) = st := by
  have hnn : 0 ≤ usableBalanceSum st now u := by
    refine List.sum_nonneg (fun b hb => ?_)
    obtain ⟨g, hg, rfl⟩ := List.mem_map.mp hb
    have : 0 < g.balance := by
      simp only [usableGrants, List.mem_filter, Bool.and_eq_true,
        decide_eq_true_eq, isUsable] at hg
      exact hg.2.2.1.1.2
    omega
  have h1 : ¬(amount ≤ 0) := by omega
  have h2 : ¬((eventLogs st u e .consumed).isEmpty = false) := by simp [hC]
  have h3 : ¬((eventLogs st u e .held).isEmpty = false) := by simp [hH]
  have h5 : ((orderedUsableGrants st now u).map (fun g => g.balance)).sum < amount := by
    rw [orderedUsable_balSum]
    omega
  have hcomb : ¬((st.logs.filter (fun l =>
      eventLogMatch u e .held l || eventLogMatch u e .consumed l)).isEmpty = false) := by
    have hcnil := List.filter_eq_nil_iff.mp hC
    have hhnil := List.filter_eq_nil_iff.mp hH
    have : st.logs.filter (fun l =>
        eventLogMatch u e .held l || eventLogMatch u e .consumed l) = [] := by
      refine List.filter_eq_nil_iff.mpr (fun l hl => ?_)
      have hc := hcnil l hl
      have hh := hhnil l hl
      simp only [Bool.or_eq_true]
      rintro (h | h)
      · exact hh h
      · exact hc h
    simp [this]
  have hd : deductCredits st now u amount e reason metadata =
      .error .insufficientCredits := by
    simp only [deductCredits, if_neg h1, if_neg h2, if_neg h3, if_pos h5]
  have hh : holdCredits st now u amount e r2 = .error .insufficientCredits := by
    simp only [holdCredits, if_neg h1, if_neg hcomb, if_pos h5]
  refine ⟨hd, hh, ?_, ?_⟩
  · simp only [applyOp, hd]
  · simp only [applyOp, hh]

/-- C3 witness: with a single 10-credit grant, requesting 11 under a fresh
event trips the insufficient-funds path of both entry points and leaves the
state untouched. -/
theorem C3_insufficient_atomic_witness :
    (eventLogs (runOps grantOnlyOps) "u" "e1" .consumed = [] ∧
      eventLogs (runOps grantOnlyOps) "u" "e1" .held = [] ∧
      usableBalanceSum (runOps grantOnlyOps) 1 "u" < 11) ∧
    (deductCredits (runOps grantOnlyOps) 1 "u" 11 "e1" none none =
        .error .insufficientCredits ∧
      holdCredits (runOps grantOnlyOps) 1 "u" 11 "e1" none =
        .error .insufficientCredits ∧
      applyOp (runOps grantOnlyOps) (.deductCredits 1 "u" 11 "e1" none none) =
        runOps grantOnlyOps ∧
      applyOp (runOps grantOnlyOps) (.holdCredits 1 "u" 11 "e1" none) =
        runOps grantOnlyOps) :=
  ⟨⟨by decide, by decide, by decide⟩,
    C3_insufficient_atomic (runOps grantOnlyOps) 1 "u" 11 "e1" none none none
      (by decide) (by decide) (by decide)⟩

/-- C10: the consumed-path idempotency short-circuit never validates the
amount.  Whenever a consumed row already exists for the user and eventId,
`deductCredits` succeeds with the state unchanged for every positive amount;
and an `AmountMismatch` failure can only arise when no consumed row exists and
held rows do (the held path). -/
theorem C10_consumed_shortcircuit (st : LedgerState) (now : Int) (u : String)
    (amount : Int) (e : String) (reason metadata : Option String)
    (hpos : 0 < amount) (hC : eventLogs st u e .consumed ≠ []) :
    deductCredits st now u amount e reason metadata = .ok st ∧
    (∀ (st2 : LedgerState) (now2 : Int) (u2 : String) (amount2 : Int) (e2 : String)
        (r2 m2 : Option String),
      deductCredits st2 now2 u2 amount2 e2 r2 m2 = .error .amountMismatch →
      eventLogs st2 u2 e2 .consumed = [] ∧ eventLogs st2 u2 e2 .held ≠ []) := by
  constructor
  · have h1 : ¬(amount ≤ 0) := by omega
    have h2 : (eventLogs st u e .consumed).isEmpty = false := by
      cases hsplit : (eventLogs st u e .consumed).isEmpty
      · rfl
      · exact absurd (List.isEmpty_iff.mp hsplit) hC
    simp only [deductCredits, if_neg h1, h2]
    simp
  · intro st2 now2 u2 amount2 e2 r2 m2 h
    by_cases h1 : amount2 ≤ 0
    · simp [deductCredits, h1] at h
    · by_cases h2 : (eventLogs st2 u2 e2 .consumed).isEmpty = false
      · simp [deductCredits, h1, h2] at h
      · have hc : eventLogs st2 u2 e2 .consumed = [] := by
          cases hsplit : (eventLogs st2 u2 e2 .consumed).isEmpty
          · exact absurd hsplit h2
          · exact List.isEmpty_iff.mp hsplit
        by_cases h3 : (eventLogs st2 u2 e2 .held).isEmpty = false
        · refine ⟨hc, ?_⟩
          intro hnil
          rw [hnil] at h3
          simp at h3
        · by_cases h5 : ((orderedUsableGrants st2 now2 u2).map
              (fun g => g.balance)).sum < amount2
          · simp [deductCredits, h1, h2, h3, h5] at h
          · simp [deductCredits, h1, h2, h3, h5] at h

/-- C10 witness: after consuming 4 credits under `e1`, retrying `deductCredits`
with the different amount 9 still succeeds and changes nothing. -/
theorem C10_consumed_shortcircuit_witness :
    (0 < (9 : Int) ∧ eventLogs (runOps deductedOps) "u" "e1" .consumed ≠ []) ∧
    deductCredits (runOps deductedOps) 2 "u" 9 "e1" none none =
      .ok (runOps deductedOps) :=
  ⟨⟨by decide, by decide⟩,
    (C10_consumed_shortcircuit (runOps deductedOps) 2 "u" 9 "e1" none none
      (by decide) (by decide)).1⟩

/-- C4 (counterexample): the claim keys the mismatch check on the summed
`amountChange` of the held rows, but held rows store negative amounts — after
holding 5 their summed `amountChange` is −5, which never equals the positive
request, so the claim predicts `AmountMismatch`; the code instead sums the
absolute values and happily confirms the matching deduction of 5. -/
theorem C4_counterexample :
    ((eventLogs (runOps heldOps) "u" "e1" .held).map (fun l => l.amountChange)).sum ≠
      (5 : Int) ∧
    eventLogs (runOps heldOps) "u" "e1" .held ≠ [] ∧
    eventLogs (runOps heldOps) "u" "e1" .consumed = [] ∧
    deductCredits (runOps heldOps) 3 "u" 5 "e1" none none ≠
      .error .amountMismatch := by
  decide

/-- C4 (amended): deduct against a held event.  When held rows exist for the
user and eventId and no consumed row does, `deductCredits` with a positive
amount fails with `AmountMismatch` exactly when the summed absolute values of
the held `amountChange` differ from the amount; when they agree it succeeds,
converting each held row of the event to action consumed in place — the grant
table is untouched and the log table keeps exactly the same rows, with the
matching rows rewritten and all others identical. -/
theorem C4_deduct_held (st : LedgerState) (now : Int) (u : String) (amount : Int)
    (e : String) (reason metadata : Option String)
    (hpos : 0 < amount) (hC : eventLogs st u e .consumed = [])
    (hH : eventLogs st u e .held ≠ []) :
    (deductCredits st now u amount e reason metadata = .error .amountMismatch ↔
      ((eventLogs st u e .held).map (fun l => |l.amountChange|)).sum ≠ amount) ∧
    (((eventLogs st u e .held).map (fun l => |l.amountChange|)).sum = amount →
      deductCredits st now u amount e reason metadata =
        .ok { st with logs := st.logs.map (confirmHeldRow u e reason metadata) } ∧
      (st.logs.map (confirmHeldRow u e reason metadata)).length = st.logs.length ∧
      (∀ l : LogEntry, eventLogMatch u e .held l →
        (confirmHeldRow u e reason metadata l).action = .consumed ∧
        (confirmHeldRow u e reason metadata l).amountChange = l.amountChange ∧
        (confirmHeldRow u e reason metadata l).id = l.id) ∧
      (∀ l : LogEntry, ¬eventLogMatch u e .held l →
        confirmHeldRow u e reason metadata l = l)) := by
  have h1 : ¬(amount ≤ 0) := by omega
  have h2 : ¬((eventLogs st u e .consumed).isEmpty = false) := by simp [hC]
  have h3 : (eventLogs st u e .held).isEmpty = false := by
    cases hsplit : (eventLogs st u e .held).isEmpty
    · rfl
    · exact absurd (List.isEmpty_iff.mp hsplit) hH
  constructor
  · constructor
    · intro h
      by_cases h4 : ((eventLogs st u e .held).map (fun l => |l.amountChange|)).sum = amount
      · simp [deductCredits, h1, h2, h3, h4] at h
      · exact h4
    · intro h4
      simp only [deductCredits, if_neg h1, if_neg h2, h3]
      simp [h4]
  · intro h4
    refine ⟨?_, List.length_map _ _, ?_, ?_⟩
    · simp only [deductCredits, if_neg h1, if_neg h2, h3]
      simp [h4]
    · intro l hl
      simp [confirmHeldRow, hl]
    · intro l hl
      simp [confirmHeldRow, hl]

/-- C4 witness: after holding 5 under `e1`, deducting 4 mismatches while
deducting 5 confirms the held rows in place. -/
theorem C4_deduct_held_witness :
    (0 < (5 : Int) ∧ eventLogs (runOps heldOps) "u" "e1" .consumed = [] ∧
      eventLogs (runOps heldOps) "u" "e1" .held ≠ [] ∧
      ((eventLogs (runOps heldOps) "u" "e1" .held).map (fun l => |l.amountChange|)).sum =
        (5 : Int)) ∧
    deductCredits (runOps heldOps) 3 "u" 5 "e1" none none =
      .ok { runOps heldOps with
              logs := (runOps heldOps).logs.map (confirmHeldRow "u" "e1" none none) } :=
  ⟨⟨by decide, by decide, by decide, by decide⟩,
    ((C4_deduct_held (runOps heldOps) 3 "u" 5 "e1" none none
      (by decide) (by decide) (by decide)).2 (by decide)).1⟩

/-- C6: refund is additive and guarded.  With unique grant ids: a prior
refunded row for the event makes `refundCredits` a no-op; no consumed row
makes it fail with `NothingToRefund`; otherwise it succeeds, appending exactly
one new refunded row per original consumed row (positive `amountChange` equal
to the absolute consumed amount, same grant reference and type), never
touching the original rows (the old log prefix is intact), keeping the grant
count, and raising each surviving grant's balance by the consumed amounts
that originated from it — grant references that no longer resolve restore
nothing. -/
theorem C6_refund (st : LedgerState) (now : Int) (u : String) (e : String)
    (reason metadata : Option String) (hnd : GrantIdsNodup st.grants) :
    (eventLogs st u e .refunded ≠ [] →
      refundCredits st now u e reason metadata = .ok st) ∧
    (eventLogs st u e .refunded = [] → eventLogs st u e .consumed = [] →
      refundCredits st now u e reason metadata = .error .nothingToRefund) ∧
    (eventLogs st u e .refunded = [] → eventLogs st u e .consumed ≠ [] →
      ∃ st', refundCredits st now u e reason metadata = .ok st' ∧
        st'.logs = st.logs ++
          refundRows now u e reason metadata st.nextId (eventLogs st u e .consumed) ∧
        List.Forall₂
          (fun row cl => row.action = LogAction.refunded ∧
            row.amountChange = |cl.amountChange| ∧
            row.creditGrantId = cl.creditGrantId ∧ row.grantType = cl.grantType ∧
            row.eventId = some e ∧ row.userId = u)
          (refundRows now u e reason metadata st.nextId (eventLogs st u e .consumed))
          (eventLogs st u e .consumed) ∧
        st'.grants.length = st.grants.length ∧
        (∀ g ∈ st.grants, ∃ g', g' ∈ st'.grants ∧ g'.id = g.id ∧
          g'.balance = g.balance +
            (((eventLogs st u e .consumed).filter
              (fun l => l.creditGrantId = some g.id)).map
                (fun l => |l.amountChange|)).sum)) := by
  refine ⟨?_, ?_, ?_⟩
  · intro h1
    have h1' : (eventLogs st u e .refunded).isEmpty = false := by
      cases hsplit : (eventLogs st u e .refunded).isEmpty
      · rfl
      · exact absurd (List.isEmpty_iff.mp hsplit) h1
    simp [refundCredits, h1']
  · intro h1 h2
    have h1' : ¬((eventLogs st u e .refunded).isEmpty = false) := by simp [h1]
    have h2' : (eventLogs st u e .consumed).isEmpty := by simp [h2]
    simp [refundCredits, h1', h2']
  · intro h1 h2
    have h1' : ¬((eventLogs st u e .refunded).isEmpty = false) := by simp [h1]
    have h2' : ¬((eventLogs st u e .consumed).isEmpty) := by
      cases hsplit : (eventLogs st u e .consumed).isEmpty
      · simp
      · exact absurd (List.isEmpty_iff.mp hsplit) h2
    refine ⟨refundLoop now u e reason metadata (eventLogs st u e .consumed) st,
      ?_, ?_, ?_, ?_, ?_⟩
    · simp only [refundCredits, if_neg h1', if_neg h2']
    · rw [refundLoop_eq]
    · exact refundRows_forall₂ now u e reason metadata _ st.nextId
    · rw [refundLoop_eq]
      show (restoreHeldBalances now st.grants _).length = _
      have hk := restoreHeldBalances_keys now (eventLogs st u e .consumed) st.grants
      have := congrArg List.length hk
      simpa [grantKeys] using this
    · intro g hg
      rw [refundLoop_eq]
      exact restoreHeldBalances_per_grant now _ st.grants g hnd hg

/-- C6 witness: after deducting 4 under `e1` from a 10-credit grant, a refund
succeeds with one refunded row and restores the balance source. -/
theorem C6_refund_witness :
    (GrantIdsNodup (runOps deductedOps).grants ∧
      eventLogs (runOps deductedOps) "u" "e1" .refunded = [] ∧
      eventLogs (runOps deductedOps) "u" "e1" .consumed ≠ []) ∧
    (∃ st', refundCredits (runOps deductedOps) 2 "u" "e1" none none = .ok st' ∧
      st'.logs = (runOps deductedOps).logs ++
        refundRows 2 "u" "e1" none none (runOps deductedOps).nextId
          (eventLogs (runOps deductedOps) "u" "e1" .consumed) ∧
      List.Forall₂
        (fun row cl => row.action = LogAction.refunded ∧
          row.amountChange = |cl.amountChange| ∧
          row.creditGrantId = cl.creditGrantId ∧ row.grantType = cl.grantType ∧
          row.eventId = some "e1" ∧ row.userId = "u")
        (refundRows 2 "u" "e1" none none (runOps deductedOps).nextId
          (eventLogs (runOps deductedOps) "u" "e1" .consumed))
        (eventLogs (runOps deductedOps) "u" "e1" .consumed) ∧
      st'.grants.length = (runOps deductedOps).grants.length ∧
      (∀ g ∈ (runOps deductedOps).grants, ∃ g', g' ∈ st'.grants ∧ g'.id = g.id ∧
        g'.balance = g.balance +
          (((eventLogs (runOps deductedOps) "u" "e1" .consumed).filter
            (fun l => l.creditGrantId = some g.id)).map
              (fun l => |l.amountChange|)).sum)) :=
  ⟨⟨by decide, by decide, by decide⟩,
    (C6_refund (runOps deductedOps) 2 "u" "e1" none none (by decide)).2.2
      (by decide) (by decide)⟩

/-- The earliest-expiration fold computes the minimum of the expirations. -/
theorem earliestFold_eq_min :
    ∀ (l : List Grant) (a : Option Int),
      earliestFold a l =
        match a with
        | none => (l.filterMap (fun g => g.expiresAt)).min?
        | some a0 => some ((l.filterMap (fun g => g.expiresAt)).foldl min a0) := by
  intro l
  induction l with
  | nil => intro a; cases a <;> simp [earliestFold, List.min?]
  | cons g rest ih =>
      intro a
      cases hge : g.expiresAt with
      | none =>
          cases a <;>
            simp only [earliestFold, hge, List.filterMap_cons] <;>
            exact ih _
      | some t =>
          cases a with
          | none =>
              simp only [earliestFold, hge, List.filterMap_cons]
              rw [ih (some t)]
              rfl
          | some a0 =>
              simp only [earliestFold, hge, List.filterMap_cons]
              have hstep : (if t < a0 then some t else some a0) = some (min a0 t) := by
                rcases le_or_lt a0 t with h | h
                · rw [if_neg (by omega), min_eq_left h]
                · rw [if_pos h, min_eq_right h.le]
              rw [hstep, ih (some (min a0 t))]
              rfl

/-- Variant of `earliestFold_eq_min` at the empty accumulator. -/
theorem earliestFold_none_eq (l : List Grant) :
    earliestFold none l = (l.filterMap (fun g => g.expiresAt)).min? := by
  rw [earliestFold_eq_min l none]

/-- C9 (counterexample): the window of `getExpiringCredits` is not strict at
the upper bound.  A grant expiring exactly `now + 30` days out is included by
the code (`lte(expiresAt, futureDate)`), while the claim's strictly-between
window excludes it. -/
theorem C9_counterexample :
    getExpiringCredits (runOps boundaryExpiryOps) 0 "u" 30 ≠
      specGetExpiringCreditsStrict (runOps boundaryExpiryOps) 0 "u" 30 := by
  decide

/-- C9 (amended): expiring-credits window with inclusive upper bound.  For
every store, clock, user and day count, `getExpiringCredits` returns the sum
of balances of exactly the usable grants whose `expiresAt` is strictly after
now and at or before now plus withinDays days, together with the minimum such
`expiresAt` (null when no grant matches). -/
theorem C9_expiring_window (st : LedgerState) (now : Int) (userId : String)
    (days : Int) :
    getExpiringCredits st now userId days = specGetExpiringCredits st now userId days := by
  simp only [getExpiringCredits, specGetExpiringCredits,
    show inclusiveWindowMatch now (now + days * 86400000) userId =
      expiringMatch now (now + days * 86400000) userId from rfl,
    Prod.mk.injEq]
  exact ⟨trivial, earliestFold_none_eq _⟩

/-- When the `sourceRef` pre-check finds nothing, `createGrant` inserts the
grant row and its granted log row and returns the fresh id. -/
theorem createGrant_insert_eq (st : LedgerState) (now : Int) (u ty : String)
    (amount : Int) (prio exp eff : Option Int) (sr : Option String)
    (hpos : 0 < amount)
    (hfind : sr.bind (fun rr => st.grants.find? (fun g => g.sourceRef = some rr)) = none) :
    createGrant st now u ty amount prio exp eff sr =
      .ok ({ grants := st.grants ++ [mkGrant now u ty amount prio exp eff sr st.nextId]
             logs := st.logs ++ [mkGrantedLog now u ty amount st.nextId (st.nextId + 1)]
             nextId := st.nextId + 2 }, st.nextId) := by
  have h1 : ¬(amount ≤ 0) := by omega
  simp only [createGrant, if_neg h1, hfind]
  rfl

/-- When the `sourceRef` pre-check finds an existing grant, `createGrant`
returns its id and changes nothing. -/
theorem createGrant_existing_eq (st : LedgerState) (now : Int) (u ty : String)
    (amount : Int) (prio exp eff : Option Int) (r : String) (g : Grant)
    (hpos : 0 < amount)
    (hfind : st.grants.find? (fun x => x.sourceRef = some r) = some g) :
    createGrant st now u ty amount prio exp eff (some r) = .ok (st, g.id) := by
  have h1 : ¬(amount ≤ 0) := by omega
  have hbind : (some r).bind
      (fun rr => st.grants.find? (fun x => x.sourceRef = some rr)) = some g := hfind
  simp only [createGrant, if_neg h1, hbind]

/-- Appending a grant that carries the reference behind reference-free rows
makes it the one `find?` returns. -/
theorem find?_sourceRef_append (gs : List Grant) (g0 : Grant) (r : String)
    (hnil : ∀ g ∈ gs, g.sourceRef ≠ some r) (hg0 : g0.sourceRef = some r) :
    (gs ++ [g0]).find? (fun g => g.sourceRef = some r) = some g0 := by
  rw [List.find?_append, List.find?_eq_none.mpr (fun g hg => by simpa using hnil g hg)]
  simp [hg0]

/-- C7: grant creation is idempotent on `sourceRef`.  In a store with no grant
carrying the reference (and a fresh id supply), a first call with a positive
amount creates exactly one grant and one granted log row with `amountChange`
equal to the amount; a second call with the same `sourceRef` (any positive
amount and other parameters) changes nothing and returns the same grant id;
and any call with a non-positive amount fails with `InvalidAmount` and
creates nothing. -/
theorem C7_createGrant_idempotent (st : LedgerState) (now1 now2 : Int)
    (u1 ty1 u2 ty2 : String) (amount1 amount2 : Int)
    (p1 x1 f1 p2 x2 f2 : Option Int) (r : String)
    (hfresh : ∀ g ∈ st.grants, g.sourceRef ≠ some r)
    (hlog : ∀ l ∈ st.logs, l.creditGrantId ≠ some st.nextId)
    (hpos1 : 0 < amount1) (hpos2 : 0 < amount2) :
    (∃ st1 gid, createGrant st now1 u1 ty1 amount1 p1 x1 f1 (some r) = .ok (st1, gid) ∧
      createGrant st1 now2 u2 ty2 amount2 p2 x2 f2 (some r) = .ok (st1, gid) ∧
      (st1.grants.filter (fun g => g.sourceRef = some r)).length = 1 ∧
      (st1.logs.filter (fun l => l.creditGrantId = some gid)).map
        (fun l => (l.action, l.amountChange)) = [(.granted, amount1)]) ∧
    (∀ (amount0 : Int) (p x f : Option Int) (sr : Option String), amount0 ≤ 0 →
      createGrant st now1 u1 ty1 amount0 p x f sr = .error .invalidAmount ∧
      applyOp st (.createGrant now1 u1 ty1 amount0 p x f sr) = st) := by
  constructor
  · have hfind1 : (some r).bind
        (fun rr => st.grants.find? (fun g => g.sourceRef = some rr)) = none := by
      show st.grants.find? (fun g => g.sourceRef = some r) = none
      refine List.find?_eq_none.mpr (fun g hg => ?_)
      simpa using hfresh g hg
    have e1 := createGrant_insert_eq st now1 u1 ty1 amount1 p1 x1 f1 (some r)
      hpos1 hfind1
    refine ⟨_, st.nextId, e1, ?_, ?_, ?_⟩
    · exact createGrant_existing_eq _ now2 u2 ty2 amount2 p2 x2 f2 r
        (mkGrant now1 u1 ty1 amount1 p1 x1 f1 (some r) st.nextId) hpos2
        (find?_sourceRef_append st.grants _ r hfresh rfl)
    · show ((st.grants ++ [mkGrant now1 u1 ty1 amount1 p1 x1 f1 (some r) st.nextId]).filter
        (fun g => g.sourceRef = some r)).length = 1
      rw [List.filter_append,
        List.filter_eq_nil_iff.mpr (fun g hg => by simpa using hfresh g hg)]
      simp [mkGrant]
    · show ((st.logs ++ [mkGrantedLog now1 u1 ty1 amount1 st.nextId (st.nextId + 1)]).filter
        (fun l => l.creditGrantId = some st.nextId)).map
        (fun l => (l.action, l.amountChange)) = [(.granted, amount1)]
      rw [List.filter_append,
        List.filter_eq_nil_iff.mpr (fun l hl => by simpa using hlog l hl)]
      simp [mkGrantedLog]
  · intro amount0 p x f sr h0
    have he : createGrant st now1 u1 ty1 amount0 p x f sr = .error .invalidAmount := by
      simp [createGrant, h0]
    refine ⟨he, ?_⟩
    simp only [applyOp, he]

/-- C7 witness: from the empty store, creating a 10-credit grant with
reference `src` twice (the second call asking for 7) yields one grant, one
granted row of 10, and the same id; a 0-amount call fails. -/
theorem C7_createGrant_idempotent_witness :
    ((∀ g ∈ (runOps []).grants, g.sourceRef ≠ some "src") ∧
      (∀ l ∈ (runOps []).logs, l.creditGrantId ≠ some (runOps []).nextId) ∧
      0 < (10 : Int) ∧ 0 < (7 : Int)) ∧
    ((∃ st1 gid,
        createGrant (runOps []) 0 "u" "topup" 10 none none none (some "src") =
          .ok (st1, gid) ∧
        createGrant st1 1 "u" "subscription" 7 none none none (some "src") =
          .ok (st1, gid) ∧
        (st1.grants.filter (fun g => g.sourceRef = some "src")).length = 1 ∧
        (st1.logs.filter (fun l => l.creditGrantId = some gid)).map
          (fun l => (l.action, l.amountChange)) = [(.granted, 10)]) ∧
      (∀ (amount0 : Int) (p x f : Option Int) (sr : Option String), amount0 ≤ 0 →
        createGrant (runOps []) 0 "u" "topup" amount0 p x f sr =
          .error .invalidAmount ∧
        applyOp (runOps []) (.createGrant 0 "u" "topup" amount0 p x f sr) =
          runOps [])) :=
  ⟨⟨by decide, by decide, by decide, by decide⟩,
    C7_createGrant_idempotent (runOps []) 0 1 "u" "topup" "u" "subscription" 10 7
      none none none none none none "src" (by decide) (by decide)
      (by decide) (by decide)⟩

/-- Zeroing a selection with distinct ids is a map over the table keyed by
id membership in the selection. -/
theorem zeroAll_eq_map_any (now : Int) :
    ∀ (sel : List Grant) (gs : List Grant), (sel.map (fun s => s.id)).Nodup →
      zeroAll now gs sel = gs.map (fun g =>
        if sel.any (fun s => s.id = g.id) then { g with balance := 0, updatedAt := now }
        else g) := by
  intro sel
  induction sel with
  | nil => intro gs _; simp [zeroAll]
  | cons s rest ih =>
      intro gs hnd
      simp only [List.map_cons, List.nodup_cons] at hnd
      have hstep : zeroAll now gs (s :: rest) =
          zeroAll now (updateGrants gs s.id
            (fun x => { x with balance := 0, updatedAt := now })) rest := rfl
      rw [hstep, ih _ hnd.2]
      simp only [updateGrants, List.map_map]
      refine List.map_congr_left (fun a _ => ?_)
      by_cases h : a.id = s.id
      · have hany : rest.any (fun x => x.id = a.id) = false := by
          refine List.any_eq_false.mpr (fun x hx => ?_)
          simp only [decide_eq_true_eq]
          intro hxa
          exact hnd.1 (hxa.trans h ▸ List.mem_map_of_mem (fun s => s.id) hx)
        simp [Function.comp, h, hany, List.any_cons]
      · have hne : (decide (s.id = a.id)) = false := by
          simp only [decide_eq_false_iff_not]
          exact fun hh => h hh.symm
        simp [Function.comp, h, hne, List.any_cons]

/-- Against a table with unique ids, id membership in the filtered selection
is the filter predicate itself. -/
theorem filter_any_id (gs : List Grant) (pred : Grant → Bool)
    (hnd : GrantIdsNodup gs) :
    ∀ g ∈ gs, (gs.filter pred).any (fun s => s.id = g.id) = pred g := by
  intro g hg
  cases hp : pred g
  · refine List.any_eq_false.mpr (fun s hs => ?_)
    simp only [decide_eq_true_eq]
    intro hsg
    have hsgs := List.mem_of_mem_filter hs
    have := mem_id_unique hnd hsgs hg hsg
    subst this
    rw [List.of_mem_filter hs] at hp
    cases hp
  · refine List.any_eq_true.mpr ⟨g, List.mem_filter.mpr ⟨hg, hp⟩, by simp⟩

/-- Lazy-expiring exactly the scanned candidates zeroes them in place. -/
theorem zeroAll_filter_eq_map (now : Int) (gs : List Grant) (pred : Grant → Bool)
    (hnd : GrantIdsNodup gs) :
    zeroAll now gs (gs.filter pred) = gs.map (fun g =>
      if pred g then { g with balance := 0, updatedAt := now } else g) := by
  rw [zeroAll_eq_map_any now (gs.filter pred) gs
    (hnd.sublist ((List.filter_sublist _).map _))]
  refine List.map_congr_left (fun g hg => ?_)
  rw [filter_any_id gs pred hnd g hg]

/-- Shape of the staged expiration rows: one per zeroed candidate, carrying
the negated locked balance and the candidate's id and type. -/
theorem expireRows_forall₂ (now : Int) (u : String) :
    ∀ (gs : List Grant) (n : Nat),
      List.Forall₂
        (fun row g => row.action = LogAction.expired ∧
          row.amountChange = -g.balance ∧ row.creditGrantId = some g.id ∧
          row.grantType = some g.type ∧ row.userId = u)
        (expireRows now u n gs) gs := by
  intro gs
  induction gs with
  | nil => intro n; simp [expireRows]
  | cons g rest ih =>
      intro n
      simp only [expireRows]
      exact List.Forall₂.cons (by simp) (ih (n + 1))

/-- C8: lazy expiration.  With unique grant ids: when the user has no active
positive-balance grant expired at or before now, `processExpiredGrants`
returns 0 and the state is untouched; otherwise it returns the state in which
exactly the candidate grants are zeroed in place, the staged expired rows —
one per candidate, `amountChange` the negative of the locked balance — are
appended in a single batch, and the returned total is the candidates' summed
balances.  At the loop level, a candidate whose re-read balance is no longer
positive (or whose row has vanished) is skipped and stages no expired row. -/
theorem C8_lazy_expiration (st : LedgerState) (now : Int) (u : String)
    (hnd : GrantIdsNodup st.grants) :
    (st.grants.filter (expiredCandidateMatch now u) = [] →
      processExpiredGrants st now u = (st, 0)) ∧
    (st.grants.filter (expiredCandidateMatch now u) ≠ [] →
      processExpiredGrants st now u =
        ({ grants := st.grants.map (fun g =>
              if expiredCandidateMatch now u g then
                { g with balance := 0, updatedAt := now }
              else g)
           logs := st.logs ++ expireRows now u st.nextId
              (st.grants.filter (expiredCandidateMatch now u))
           nextId := st.nextId +
              (st.grants.filter (expiredCandidateMatch now u)).length },
         ((st.grants.filter (expiredCandidateMatch now u)).map
            (fun g => g.balance)).sum) ∧
      List.Forall₂
        (fun row g => row.action = LogAction.expired ∧
          row.amountChange = -g.balance ∧ row.creditGrantId = some g.id ∧
          row.grantType = some g.type ∧ row.userId = u)
        (expireRows now u st.nextId (st.grants.filter (expiredCandidateMatch now u)))
        (st.grants.filter (expiredCandidateMatch now u))) ∧
    (∀ (st0 : LedgerState) (g : Grant) (rest : List Grant) (staged : List LogEntry)
        (total : Int) (f : Grant),
      st0.grants.find? (fun x => x.id = g.id) = some f → f.balance ≤ 0 →
      expireLoop now u (g :: rest) st0 staged total =
        expireLoop now u rest st0 staged total) ∧
    (∀ (st0 : LedgerState) (g : Grant) (rest : List Grant) (staged : List LogEntry)
        (total : Int),
      st0.grants.find? (fun x => x.id = g.id) = none →
      expireLoop now u (g :: rest) st0 staged total =
        expireLoop now u rest st0 staged total) := by
  refine ⟨?_, ?_, ?_, ?_⟩
  · intro h
    have hemp : (st.grants.filter (expiredCandidateMatch now u)).isEmpty := by
      simp [h]
    simp [processExpiredGrants, hemp]
  · intro h
    have hemp : ¬((st.grants.filter (expiredCandidateMatch now u)).isEmpty) := by
      cases hsplit : (st.grants.filter (expiredCandidateMatch now u)).isEmpty
      · simp
      · exact absurd (List.isEmpty_iff.mp hsplit) h
    have hcspec : ∀ g ∈ st.grants.filter (expiredCandidateMatch now u),
        g ∈ st.grants ∧ 0 < g.balance := by
      intro g hg
      have h1 := List.mem_of_mem_filter hg
      have h2 := List.of_mem_filter hg
      simp only [expiredCandidateMatch, Bool.and_eq_true, decide_eq_true_eq] at h2
      exact ⟨h1, h2.1.2⟩
    have hgnd : ((st.grants.filter (expiredCandidateMatch now u)).map
        (fun g => g.id)).Nodup :=
      hnd.sublist ((List.filter_sublist _).map _)
    constructor
    · unfold processExpiredGrants
      rw [if_neg hemp,
        expireLoop_eq now u _ st [] 0 hnd (fun g hg => (hcspec g hg).1)
          (fun g hg => (hcspec g hg).2) hgnd,
        ← zeroAll_filter_eq_map now st.grants (expiredCandidateMatch now u) hnd]
      simp
    · exact expireRows_forall₂ now u _ st.nextId
  · intro st0 g rest staged total f hf hb
    simp only [expireLoop, hf, if_pos hb]
  · intro st0 g rest staged total hf
    simp only [expireLoop, hf]

/-- C8 witness: a 7-credit grant that expired at time 5, processed at time
10, is zeroed with one staged expired row of −7 and total 7; the skip clause
fires on a drained row. -/
theorem C8_lazy_expiration_witness :
    (GrantIdsNodup (runOps expiredGrantOps).grants ∧
      (runOps expiredGrantOps).grants.filter (expiredCandidateMatch 10 "u") ≠ []) ∧
    processExpiredGrants (runOps expiredGrantOps) 10 "u" =
      ({ grants := (runOps expiredGrantOps).grants.map (fun g =>
            if expiredCandidateMatch 10 "u" g then
              { g with balance := 0, updatedAt := 10 }
            else g)
         logs := (runOps expiredGrantOps).logs ++ expireRows 10 "u"
            (runOps expiredGrantOps).nextId
            ((runOps expiredGrantOps).grants.filter (expiredCandidateMatch 10 "u"))
         nextId := (runOps expiredGrantOps).nextId +
            ((runOps expiredGrantOps).grants.filter
              (expiredCandidateMatch 10 "u")).length },
       (((runOps expiredGrantOps).grants.filter (expiredCandidateMatch 10 "u")).map
          (fun g => g.balance)).sum) :=
  ⟨⟨by decide, by decide⟩,
    (((C8_lazy_expiration (runOps expiredGrantOps) 10 "u" (by decide)).2.1)
      (by decide)).1⟩

/-- Updates keyed on different ids commute. -/
theorem updateGrants_comm {gs : List Grant} {a b : Nat} {f g : Grant → Grant}
    (hf : ∀ x, (f x).id = x.id) (hg : ∀ x, (g x).id = x.id) (hab : a ≠ b) :
    updateGrants (updateGrants gs a f) b g = updateGrants (updateGrants gs b g) a f := by
  simp only [updateGrants, List.map_map]
  refine List.map_congr_left (fun x _ => ?_)
  by_cases hxa : x.id = a <;> by_cases hxb : x.id = b
  · exact absurd (hxa.symm.trans hxb) hab
  · simp [Function.comp, hxa, hxb, hf, hg, hab, Ne.symm hab]
  · simp [Function.comp, hxa, hxb, hf, hg, hab, Ne.symm hab]
  · simp [Function.comp, hxa, hxb]

/-- Two updates keyed on the same id fuse. -/
theorem updateGrants_same {gs : List Grant} {a : Nat} {f g : Grant → Grant}
    (hf : ∀ x, (f x).id = x.id) :
    updateGrants (updateGrants gs a f) a g = updateGrants gs a (fun x => g (f x)) := by
  simp only [updateGrants, List.map_map]
  refine List.map_congr_left (fun x _ => ?_)
  by_cases hxa : x.id = a <;> simp [Function.comp, hxa, hf]

/-- An update keyed outside a plan's grants commutes past the plan. -/
theorem updateGrants_applyPlan_comm (now1 now2 : Int) (gid : Nat) (d : Int) :
    ∀ (plan : List (Grant × Int)) (gs : List Grant), (∀ p ∈ plan, p.1.id ≠ gid) →
      updateGrants (applyPlan now1 gs plan) gid
          (fun x => { x with balance := x.balance + d, updatedAt := now2 }) =
        applyPlan now1
          (updateGrants gs gid
            (fun x => { x with balance := x.balance + d, updatedAt := now2 })) plan := by
  intro plan
  induction plan with
  | nil => intro gs _; rfl
  | cons p rest ih =>
      intro gs hne
      have hstep : applyPlan now1 gs (p :: rest) =
          applyPlan now1 (updateGrants gs p.1.id
            (fun x => { x with balance := p.1.balance - p.2, updatedAt := now1 })) rest := rfl
      have hcomm : updateGrants (updateGrants gs p.1.id
            (fun x => { x with balance := p.1.balance - p.2, updatedAt := now1 })) gid
            (fun x => { x with balance := x.balance + d, updatedAt := now2 }) =
          updateGrants (updateGrants gs gid
            (fun x => { x with balance := x.balance + d, updatedAt := now2 })) p.1.id
            (fun x => { x with balance := p.1.balance - p.2, updatedAt := now1 }) :=
        updateGrants_comm (fun x => rfl) (fun x => rfl) (hne p (by simp))
      rw [hstep, ih _ (fun q hq => hne q (by simp [hq])), hcomm]
      rfl

/-- Restoring the held rows a plan just logged undoes the plan on every
grant's id and balance. -/
theorem restorePlan_applyPlan_roundtrip (now1 now2 : Int) :
    ∀ (plan : List (Grant × Int)) (gs : List Grant), GrantIdsNodup gs →
      (∀ p ∈ plan, p.1 ∈ gs) → (plan.map (fun p => p.1.id)).Nodup →
      (restorePlan now2 (applyPlan now1 gs plan) plan).map (fun g => (g.id, g.balance)) =
        gs.map (fun g => (g.id, g.balance)) := by
  intro plan
  induction plan with
  | nil => intro gs _ _ _; rfl
  | cons p rest ih =>
      intro gs hnd hmem hpnd
      simp only [List.map_cons, List.nodup_cons] at hpnd
      have hp1 : p.1 ∈ gs := hmem p (by simp)
      have hstep1 : applyPlan now1 gs (p :: rest) =
          applyPlan now1 (updateGrants gs p.1.id
            (fun x => { x with balance := p.1.balance - p.2, updatedAt := now1 })) rest := rfl
      have hstep2 : ∀ X, restorePlan now2 X (p :: rest) =
          restorePlan now2 (updateGrants X p.1.id
            (fun x => { x with balance := x.balance + p.2, updatedAt := now2 })) rest :=
        fun X => rfl
      have hsame : updateGrants (updateGrants gs p.1.id
            (fun x => { x with balance := p.1.balance - p.2, updatedAt := now1 })) p.1.id
            (fun x => { x with balance := x.balance + p.2, updatedAt := now2 }) =
          updateGrants gs p.1.id
            (fun x => { x with balance := p.1.balance - p.2 + p.2, updatedAt := now2 }) :=
        updateGrants_same (fun x => rfl)
      rw [hstep1, hstep2,
        updateGrants_applyPlan_comm now1 now2 p.1.id p.2 rest _
          (fun q hq hEq => hpnd.1 (hEq ▸ List.mem_map_of_mem _ hq)),
        hsame]
      have hgs' : GrantIdsNodup (updateGrants gs p.1.id
          (fun x => { x with balance := p.1.balance - p.2 + p.2, updatedAt := now2 })) :=
        GrantIdsNodup_updateGrants (fun x => rfl) hnd
      have hmem' : ∀ q ∈ rest, q.1 ∈ updateGrants gs p.1.id
          (fun x => { x with balance := p.1.balance - p.2 + p.2, updatedAt := now2 }) := by
        intro q hq
        refine mem_updateGrants_of_ne (hmem q (by simp [hq])) ?_
        intro hEq
        exact hpnd.1 (hEq ▸ List.mem_map_of_mem _ hq)
      rw [ih _ hgs' hmem' hpnd.2]
      simp only [updateGrants, List.map_map]
      refine List.map_congr_left (fun a ha => ?_)
      by_cases hxa : a.id = p.1.id
      · have haeq : a = p.1 := mem_id_unique hnd ha hp1 hxa
        subst haeq
        simp [hxa]
        try omega
      · simp [hxa]

/-- Field facts of the rows a plan logs: owner, event, action, and a planned
amount. -/
theorem planLogs_mem_spec (action : LogAction) (now : Int) (u e : String)
    (reason metadata : Option String) :
    ∀ (plan : List (Grant × Int)) (n : Nat),
      ∀ row ∈ planLogs action now u e reason metadata n plan,
        row.userId = u ∧ row.eventId = some e ∧ row.action = action ∧
          ∃ p ∈ plan, row.amountChange = -p.2 := by
  intro plan
  induction plan with
  | nil => intro n row h; simp [planLogs] at h
  | cons p rest ih =>
      intro n row h
      obtain ⟨g, d⟩ := p
      simp only [planLogs, List.mem_cons] at h
      rcases h with h | h
      · subst h
        exact ⟨rfl, rfl, rfl, (g, d), by simp⟩
      · obtain ⟨h1, h2, h3, q, hq, h4⟩ := ih (n + 1) row h
        exact ⟨h1, h2, h3, q, by simp [hq], h4⟩

/-- Planned held rows all satisfy the per-event held filter. -/
theorem planLogs_held_match (now : Int) (u e : String) (reason metadata : Option String)
    (plan : List (Grant × Int)) (n : Nat) :
    ∀ row ∈ planLogs .held now u e reason metadata n plan,
      eventLogMatch u e .held row = true := by
  intro row h
  obtain ⟨h1, h2, h3, -⟩ := planLogs_mem_spec .held now u e reason metadata plan n row h
  simp [eventLogMatch, h1, h2, h3]

/-- A plan's log list is empty exactly when the plan is. -/
theorem planLogs_eq_nil_iff (action : LogAction) (now : Int) (u e : String)
    (reason metadata : Option String) (plan : List (Grant × Int)) (n : Nat) :
    planLogs action now u e reason metadata n plan = [] ↔ plan = [] := by
  cases plan with
  | nil => simp [planLogs]
  | cons p rest =>
      obtain ⟨g, d⟩ := p
      simp [planLogs]

/-- The balance restorations of the release path applied to the rows a held
plan logged are exactly the plan's reverse updates. -/
theorem restoreHeldBalances_planLogs (now1 now2 : Int) (u e : String)
    (reason metadata : Option String) :
    ∀ (plan : List (Grant × Int)) (n : Nat) (gs : List Grant),
      (∀ p ∈ plan, 0 ≤ p.2) →
      restoreHeldBalances now2 gs (planLogs .held now1 u e reason metadata n plan) =
        restorePlan now2 gs plan := by
  intro plan
  induction plan with
  | nil => intro n gs _; rfl
  | cons p rest ih =>
      intro n gs hpos
      obtain ⟨g, d⟩ := p
      have habs : |(-d)| = d := by
        rw [abs_neg, abs_of_nonneg (hpos (g, d) (by simp))]
      simp only [planLogs, restoreHeldBalances, restorePlan, List.foldl_cons, habs]
      exact ih (n + 1) _ (fun q hq => hpos q (by simp [hq]))

/-- C5 (counterexample): the claim omits the freshness of the eventId.  With
a hold of 5 already outstanding under `e1`, running `holdCredits(5, e1)` (a
positive amount within the usable balance, but an idempotent no-op) followed
by `releaseCredits(e1)` releases the pre-existing hold: balances end at 10,
not at the 5 they held before this hold call. -/
theorem C5_counterexample :
    0 < (5 : Int) ∧ 5 ≤ usableBalanceSum (runOps heldOps) 2 "u" ∧
    holdCredits (runOps heldOps) 2 "u" 5 "e1" none = .ok (runOps heldOps) ∧
    (releaseCredits (runOps heldOps) 3 "u" "e1" none).grants.map
        (fun g => g.balance) ≠
      (runOps heldOps).grants.map (fun g => g.balance) := by
  decide

/-- C5 (amended): hold then release round-trips, for a fresh eventId.  With
unique grant ids, no prior held or consumed row for the event, and a positive
amount within the usable balance: the hold succeeds, appending a non-empty
batch of held rows; releasing the same event then restores every grant's id
and balance to its pre-hold value, rewrites exactly the held batch in place to
action released with positive `amountChange`, and inserts no new log rows. -/
theorem C5_hold_release (st : LedgerState) (now1 now2 : Int) (u : String)
    (amount : Int) (e : String) (r1 r2 : Option String)
    (hnd : GrantIdsNodup st.grants)
    (hC : eventLogs st u e .consumed = []) (hH : eventLogs st u e .held = [])
    (hpos : 0 < amount) (hsuff : amount ≤ usableBalanceSum st now1 u) :
    ∃ st1, holdCredits st now1 u amount e r1 = .ok st1 ∧
      ∃ heldRows, heldRows ≠ [] ∧ st1.logs = st.logs ++ heldRows ∧
        (releaseCredits st1 now2 u e r2).grants.map (fun g => (g.id, g.balance)) =
          st.grants.map (fun g => (g.id, g.balance)) ∧
        (releaseCredits st1 now2 u e r2).logs =
          st.logs ++ heldRows.map (releaseHeldRow u e r2) ∧
        (releaseCredits st1 now2 u e r2).logs.length = st1.logs.length ∧
        ∀ l ∈ heldRows.map (releaseHeldRow u e r2),
          l.action = .released ∧ 0 < l.amountChange := by
  have e1 := holdCredits_fresh_eq st now1 u amount e r1 hC hH hpos hsuff
  have hbalpos : ∀ g ∈ orderedUsableGrants st now1 u, 0 < g.balance :=
    fun g hg => (mem_orderedUsable hg).2.2
  have hdpos : ∀ p ∈ waterfallPlan (orderedUsableGrants st now1 u) amount, 0 < p.2 :=
    waterfallPlan_pos _ amount hbalpos
  have hplansum :
      ((waterfallPlan (orderedUsableGrants st now1 u) amount).map (fun p => p.2)).sum =
        amount := by
    refine waterfallPlan_sum _ amount hbalpos hpos ?_
    rw [orderedUsable_balSum]
    exact hsuff
  have hplan_ne : waterfallPlan (orderedUsableGrants st now1 u) amount ≠ [] := by
    intro hnil
    rw [hnil] at hplansum
    simp at hplansum
    omega
  have hpl_ne : planLogs .held now1 u e
      (some (r1.getD "Credits held for pending operation")) none st.nextId
      (waterfallPlan (orderedUsableGrants st now1 u) amount) ≠ [] := by
    rw [Ne, planLogs_eq_nil_iff]
    exact hplan_ne
  have hfilter_st : st.logs.filter (eventLogMatch u e .held) = [] := hH
  have hfilter_pl : (planLogs .held now1 u e
      (some (r1.getD "Credits held for pending operation")) none st.nextId
      (waterfallPlan (orderedUsableGrants st now1 u) amount)).filter
        (eventLogMatch u e .held) =
      planLogs .held now1 u e
        (some (r1.getD "Credits held for pending operation")) none st.nextId
        (waterfallPlan (orderedUsableGrants st now1 u) amount) :=
    List.filter_eq_self.mpr (planLogs_held_match now1 u e _ none _ st.nextId)
  refine ⟨_, e1, planLogs .held now1 u e
      (some (r1.getD "Credits held for pending operation")) none st.nextId
      (waterfallPlan (orderedUsableGrants st now1 u) amount), hpl_ne, rfl, ?_⟩
  have hheld1 : eventLogs
      { grants := applyPlan now1 st.grants
          (waterfallPlan (orderedUsableGrants st now1 u) amount)
        logs := st.logs ++ planLogs .held now1 u e
          (some (r1.getD "Credits held for pending operation")) none st.nextId
          (waterfallPlan (orderedUsableGrants st now1 u) amount)
        nextId := st.nextId +
          (waterfallPlan (orderedUsableGrants st now1 u) amount).length }
      u e .held =
      planLogs .held now1 u e
        (some (r1.getD "Credits held for pending operation")) none st.nextId
        (waterfallPlan (orderedUsableGrants st now1 u) amount) := by
    show (st.logs ++ _).filter (eventLogMatch u e .held) = _
    rw [List.filter_append, hfilter_st, hfilter_pl]
    rfl
  have hrel : releaseCredits
      { grants := applyPlan now1 st.grants
          (waterfallPlan (orderedUsableGrants st now1 u) amount)
        logs := st.logs ++ planLogs .held now1 u e
          (some (r1.getD "Credits held for pending operation")) none st.nextId
          (waterfallPlan (orderedUsableGrants st now1 u) amount)
        nextId := st.nextId +
          (waterfallPlan (orderedUsableGrants st now1 u) amount).length }
      now2 u e r2 =
      { grants := restoreHeldBalances now2
          (applyPlan now1 st.grants
            (waterfallPlan (orderedUsableGrants st now1 u) amount))
          (planLogs .held now1 u e
            (some (r1.getD "Credits held for pending operation")) none st.nextId
            (waterfallPlan (orderedUsableGrants st now1 u) amount))
        logs := (st.logs ++ planLogs .held now1 u e
            (some (r1.getD "Credits held for pending operation")) none st.nextId
            (waterfallPlan (orderedUsableGrants st now1 u) amount)).map
          (releaseHeldRow u e r2)
        nextId := st.nextId +
          (waterfallPlan (orderedUsableGrants st now1 u) amount).length } := by
    unfold releaseCredits
    rw [hheld1, if_neg (by simp [hpl_ne])]
  have hmemplan : ∀ p ∈ waterfallPlan (orderedUsableGrants st now1 u) amount,
      p.1 ∈ st.grants :=
    fun p hp => (mem_orderedUsable (waterfallPlan_fst_mem hp)).1
  have hplannd : ((waterfallPlan (orderedUsableGrants st now1 u) amount).map
      (fun p => p.1.id)).Nodup :=
    waterfallPlan_ids_nodup (orderedUsable_ids_nodup hnd)
  have hstmap : st.logs.map (releaseHeldRow u e r2) = st.logs := by
    have hnone := List.filter_eq_nil_iff.mp hfilter_st
    have : ∀ l ∈ st.logs, releaseHeldRow u e r2 l = l := by
      intro l hl
      simp [releaseHeldRow, hnone l hl]
    calc st.logs.map (releaseHeldRow u e r2) = st.logs.map (fun l => l) :=
          List.map_congr_left this
      _ = st.logs := List.map_id _
  refine ⟨?_, ?_, ?_, ?_⟩
  · rw [hrel]
    show (restoreHeldBalances now2 _ _).map _ = _
    rw [restoreHeldBalances_planLogs now1 now2 u e _ none _ st.nextId _
      (fun p hp => (hdpos p hp).le)]
    exact restorePlan_applyPlan_roundtrip now1 now2 _ st.grants hnd hmemplan hplannd
  · rw [hrel]
    show (st.logs ++ _).map _ = _
    rw [List.map_append, hstmap]
  · rw [hrel]
    show ((st.logs ++ _).map _).length = (st.logs ++ _).length
    rw [List.length_map]
  · intro l hl
    obtain ⟨row, hrow, rfl⟩ := List.mem_map.mp hl
    have hmatch := planLogs_held_match now1 u e
      (some (r1.getD "Credits held for pending operation")) none _ st.nextId row hrow
    obtain ⟨-, -, -, p, hp, hamt⟩ := planLogs_mem_spec .held now1 u e
      (some (r1.getD "Credits held for pending operation")) none _ st.nextId row hrow
    have hdp := hdpos p hp
    constructor
    · simp [releaseHeldRow, hmatch]
    · simp only [releaseHeldRow, hmatch, if_pos]
      rw [hamt, abs_neg, abs_of_nonneg hdp.le]
      exact hdp

/-- C5 witness: holding 3 of a 10-credit grant under a fresh event and then
releasing it restores the single grant's balance, with the held row now
released and positive. -/
theorem C5_hold_release_witness :
    (GrantIdsNodup (runOps grantOnlyOps).grants ∧
      eventLogs (runOps grantOnlyOps) "u" "e9" .consumed = [] ∧
      eventLogs (runOps grantOnlyOps) "u" "e9" .held = [] ∧
      0 < (3 : Int) ∧ 3 ≤ usableBalanceSum (runOps grantOnlyOps) 1 "u") ∧
    (∃ st1, holdCredits (runOps grantOnlyOps) 1 "u" 3 "e9" none = .ok st1 ∧
      ∃ heldRows, heldRows ≠ [] ∧ st1.logs = (runOps grantOnlyOps).logs ++ heldRows ∧
        (releaseCredits st1 2 "u" "e9" none).grants.map (fun g => (g.id, g.balance)) =
          (runOps grantOnlyOps).grants.map (fun g => (g.id, g.balance)) ∧
        (releaseCredits st1 2 "u" "e9" none).logs =
          (runOps grantOnlyOps).logs ++ heldRows.map (releaseHeldRow "u" "e9" none) ∧
        (releaseCredits st1 2 "u" "e9" none).logs.length = st1.logs.length ∧
        ∀ l ∈ heldRows.map (releaseHeldRow "u" "e9" none),
          l.action = .released ∧ 0 < l.amountChange) :=
  ⟨⟨by decide, by decide, by decide, by decide, by decide⟩,
    C5_hold_release (runOps grantOnlyOps) 1 2 "u" 3 "e9" none none
      (by decide) (by decide) (by decide) (by decide) (by decide)⟩

/-- C1 (counterexample): the conservation formula as the claim states it —
with `Σ released.amountChange` added on the right-hand side — fails on a
concrete run: grant 10 topup credits, hold 5, release the hold.  The release
rewrites the held rows in place with positive sign, so the claimed sum counts
the released 5 on top of the granted 10 while the balances are back to 10. -/
theorem C1_counterexample : ¬ specConservation "u" (runOps holdReleaseOps) := by
  decide

/-- C1 (amended): conservation of credits.  After any sequence of createGrant,
deductCredits, holdCredits, confirmHold, releaseCredits, refundCredits,
processExpiredGrants and revokeGrant, every user's summed grant balances equal
granted plus refunded `amountChange` minus the absolute consumed, expired,
revoked and outstanding-held `amountChange` — the claim's formula without the
released term (a release converts its held rows in place, so released rows
carry no separate weight). -/
theorem C1_conservation (ops : List Op) (u : String) :
    amendedConservation u (runOps ops) := by
  have h := (runOps_inv ops).1 u
  unfold amendedConservation
  rw [balanceSum_eq_map, ← ledgerSum_eq]
  exact h

end SaasCredits
